import Mathlib

/-!
The binary search tree and its external iterator (`src/iterator.cpp`).

A shallow embedding of `Node<T>`, `BinaryTree<T>` and `BinaryTreeIterator<T>`.

* A `Node<T>*` is a value of `NodePtr T`: either `nullptr`, or a pointer to a node, given by
  the node's `left` pointer, its `value` and its `right` pointer.  The tree owns its nodes
  exclusively, so the pointer graph below `root` is a finite tree.  The field `parent` is only
  ever written (line 183), never read, and is left out.
* Where a node has to be identified inside the tree it is mutated in (`addNode`) or freed from
  (`clear`), a pointer is the address `Addr` of the node: the list of child links followed from
  the root.
* The value type `T` comes with `operator<` (an `LT` instance with decidable comparison) and
  `operator==` (decidable equality).
* `throw` and reads through a null pointer are results of type `Fault`.
-/

namespace IteratorRepo

/-- A `Node<T>*`: null, or the node it points to (lines 19-29). -/
inductive NodePtr (T : Type) where
  | nullptr : NodePtr T
  | node (left : NodePtr T) (value : T) (right : NodePtr T) : NodePtr T
  deriving DecidableEq

/-- One child link of a node. -/
inductive Dir where
  | left : Dir
  | right : Dir
  deriving DecidableEq

/-- The address of a node inside a tree: the child links followed from the root. -/
abbrev Addr := List Dir

/-- What can go wrong in a run. -/
inductive Fault where
  /-- Line 54, `throw "tree is empty"`. -/
  | treeIsEmpty : Fault
  /-- A field read through `nullptr` (undefined behaviour in C++). -/
  | nullDereference : Fault
  /-- A caller loop of the model was given too little fuel (not a behaviour of the code). -/
  | outOfFuel : Fault
  deriving DecidableEq

deriving instance DecidableEq for Except

namespace NodePtr

variable {T : Type}

/-- The test `p == nullptr`. -/
def isNull : NodePtr T → Bool
  | nullptr => true
  | node _ _ _ => false

/-- Number of nodes reachable from a pointer. -/
def size : NodePtr T → Nat
  | nullptr => 0
  | node l _ r => size l + 1 + size r

/-- The pointer found by following the child links `a` from `p` (`nullptr` once a link is
missing). -/
def at_ : NodePtr T → Addr → NodePtr T
  | p, [] => p
  | nullptr, _ :: _ => nullptr
  | node l _ _, Dir.left :: a => at_ l a
  | node _ _ r, Dir.right :: a => at_ r a

/-- The assignment `q->left = n`, where `q` is the node at address `a` below `p`. -/
def setLeft : NodePtr T → Addr → NodePtr T → NodePtr T
  | nullptr, _, _ => nullptr
  | node _ v r, [], n => node n v r
  | node l v r, Dir.left :: a, n => node (setLeft l a n) v r
  | node l v r, Dir.right :: a, n => node l v (setLeft r a n)

/-- The assignment `q->right = n`, where `q` is the node at address `a` below `p`. -/
def setRight : NodePtr T → Addr → NodePtr T → NodePtr T
  | nullptr, _, _ => nullptr
  | node l v _, [], n => node l v n
  | node l v r, Dir.left :: a, n => node (setRight l a n) v r
  | node l v r, Dir.right :: a, n => node l v (setRight r a n)

/-- The values in the order `showTree(Node<T>*)` prints them (lines 122-128): left subtree,
the node, right subtree. -/
def showTree : NodePtr T → List T
  | nullptr => []
  | node l v r => showTree l ++ v :: showTree r

/-- Node first, then the left subtree, then the right subtree. -/
def preorder : NodePtr T → List T
  | nullptr => []
  | node l v r => v :: (preorder l ++ preorder r)

/-- `findNodeHelper` (lines 155-161). -/
def findNodeHelper [LT T] [∀ a b : T, Decidable (a < b)] [DecidableEq T] :
    NodePtr T → T → NodePtr T
  | nullptr, _ => nullptr
  | node l v r, value =>
    if v = value then node l v r
    else if value < v then findNodeHelper l value
    else findNodeHelper r value

/-- The loop of `addNode` (lines 169-175).  `current` is the pointer together with its address
`cur`; the result is the final `parent` (`none` for `nullptr`). -/
def addNodeLoop [LT T] [∀ a b : T, Decidable (a < b)] (value : T) :
    NodePtr T → Addr → Option Addr → Option Addr
  | nullptr, _, parent => parent
  | node l v r, cur, _ =>
    if value < v then addNodeLoop value l (cur ++ [Dir.left]) (some cur)
    else addNodeLoop value r (cur ++ [Dir.right]) (some cur)

/-- Recursive leaf insertion: left when `value < node.value`, otherwise right, the new node in
the first null slot. -/
def insertRec [LT T] [∀ a b : T, Decidable (a < b)] (value : T) : NodePtr T → NodePtr T
  | nullptr => node nullptr value nullptr
  | node l v r =>
    if value < v then node (insertRec value l) v r else node l v (insertRec value r)

/-- The addresses of the nodes below `p`, itself at address `a`: the node, then its left
subtree, then its right subtree. -/
def addrs : Addr → NodePtr T → List Addr
  | _, nullptr => []
  | a, node l _ r => a :: (addrs (a ++ [Dir.left]) l ++ addrs (a ++ [Dir.right]) r)

/-- Every value below `p` satisfies `P`. -/
def All (P : T → Prop) : NodePtr T → Prop
  | nullptr => True
  | node l v r => All P l ∧ P v ∧ All P r

/-- The search-tree property of §3: everything left of a node is strictly smaller, everything
right of it is greater or equal. -/
def IsBST [LT T] [LE T] : NodePtr T → Prop
  | nullptr => True
  | node l v r => All (fun x => x < v) l ∧ All (fun x => v ≤ x) r ∧ IsBST l ∧ IsBST r

end NodePtr

open NodePtr

/-- The class `BinaryTree<T>`: its only field is `root` (line 98). -/
structure BinaryTree (T : Type) where
  root : NodePtr T
  deriving DecidableEq

/-- The class `BinaryTreeIterator<T>` (lines 88-91).  `nodeStack` has its top at the head.
The field `tree` is only ever written and is left out. -/
structure BinaryTreeIterator (T : Type) where
  nodeStack : List (NodePtr T)
  current : NodePtr T
  deriving DecidableEq

namespace BinaryTreeIterator

variable {T : Type}

/-- The constructor (lines 39-42): an empty stack and `current = start`. -/
def new (start : NodePtr T) : BinaryTreeIterator T :=
  { nodeStack := [], current := start }

/-- `hasMore` (lines 44-46). -/
def hasMore (it : BinaryTreeIterator T) : Bool :=
  !it.current.isNull || !it.nodeStack.isEmpty

/-- The pop of lines 49-52 and of lines 62-65: when `current` is null and the stack is not
empty, `current` becomes the top of the stack, which is removed. -/
def popIfNull (it : BinaryTreeIterator T) : BinaryTreeIterator T :=
  match it.current, it.nodeStack with
  | nullptr, top :: rest => { nodeStack := rest, current := top }
  | _, _ => it

/-- Lines 57-66 of `getNext`: read `current->value`, push `current->right` unless it is
null, move `current` to its left child, and pop when that child is null. -/
def getNextBody (it : BinaryTreeIterator T) : Except Fault (T × BinaryTreeIterator T) :=
  match it.current with
  | nullptr => .error Fault.nullDereference
  | node left value right =>
    let pushed : List (NodePtr T) := if right.isNull then it.nodeStack else right :: it.nodeStack
    .ok (value, popIfNull { nodeStack := pushed, current := left })

/-- `getNext` (lines 48-67): the value returned and the iterator afterwards, or the fault.
Lines 49-55 pop the stack into a null `current`, or throw when the stack is empty too. -/
def getNext (it : BinaryTreeIterator T) : Except Fault (T × BinaryTreeIterator T) :=
  match it.current, it.nodeStack with
  | nullptr, top :: rest => getNextBody { nodeStack := rest, current := top }
  | nullptr, [] => .error Fault.treeIsEmpty
  | node _ _ _, _ => getNextBody it

/-- `operator!=` (lines 71-73).  Pointers are compared as the subtrees they point to, which
is the comparison of the pointers themselves whenever one side is `nullptr`. -/
def ne [DecidableEq T] (it other : BinaryTreeIterator T) : Bool :=
  it.current != other.current

/-- `operator*` (lines 75-77). -/
def deref (it : BinaryTreeIterator T) : Except Fault T :=
  match it.current with
  | nullptr => .error Fault.nullDereference
  | node _ value _ => .ok value

/-- `operator++` (lines 83-86): `getNext` with its value dropped. -/
def inc (it : BinaryTreeIterator T) : Except Fault (BinaryTreeIterator T) :=
  match getNext it with
  | .error e => .error e
  | .ok (_, next) => .ok next

/-- The loop of `main`, lines 215-216: `while (iter->hasMore()) ... iter->getNext()`, at most
`fuel` rounds.  The values obtained, in order, and the iterator at the end. -/
def whileHasMore : Nat → BinaryTreeIterator T → Except Fault (List T × BinaryTreeIterator T)
  | 0, it => if hasMore it then .error Fault.outOfFuel else .ok ([], it)
  | fuel + 1, it =>
    if hasMore it then
      match getNext it with
      | .error e => .error e
      | .ok (v, next) =>
        match whileHasMore fuel next with
        | .error e => .error e
        | .ok (vs, last) => .ok (v :: vs, last)
    else .ok ([], it)

/-- The loop of `main`, lines 227-230: `for (...; iterator != bt.end(); ++iterator)` reading
`*iterator` in its body, at most `fuel` rounds; `stop` is `bt.end()`. -/
def forLoop [DecidableEq T] (stop : BinaryTreeIterator T) :
    Nat → BinaryTreeIterator T → Except Fault (List T)
  | 0, it => if ne it stop then .error Fault.outOfFuel else .ok []
  | fuel + 1, it =>
    if ne it stop then
      match deref it with
      | .error e => .error e
      | .ok elem =>
        match inc it with
        | .error e => .error e
        | .ok next =>
          match forLoop stop fuel next with
          | .error e => .error e
          | .ok elems => .ok (elem :: elems)
    else .ok []

/-- The values below the pointers of a stack, from the top: each pointer contributes its
node, then its left subtree, then its right subtree. -/
def stackPreorder : List (NodePtr T) → List T
  | [] => []
  | p :: ps => p.preorder ++ stackPreorder ps

/-- The values an iterator has not returned yet. -/
def remaining (it : BinaryTreeIterator T) : List T :=
  it.current.preorder ++ stackPreorder it.nodeStack

/-- No pointer on the stack is null (line 58 guards the only push). -/
def NoNull (it : BinaryTreeIterator T) : Prop :=
  ∀ p ∈ it.nodeStack, p.isNull = false

/-- The pointer `current` is null only when the stack is empty. -/
def Settled (it : BinaryTreeIterator T) : Prop :=
  it.current.isNull = true → it.nodeStack = []

/-- The iterator states that `start` reaches by successful calls of `getNext`. -/
inductive ReachableFrom (start : BinaryTreeIterator T) : BinaryTreeIterator T → Prop where
  | refl : ReachableFrom start start
  | step {it next : BinaryTreeIterator T} {v : T} :
      ReachableFrom start it → getNext it = .ok (v, next) → ReachableFrom start next

end BinaryTreeIterator

namespace BinaryTree

variable {T : Type}

/-- The constructor `BinaryTree()` (line 105): `root` is null. -/
def empty : BinaryTree T :=
  { root := nullptr }

/-- `isEmpty` (lines 101-103). -/
def isEmpty (bt : BinaryTree T) : Bool :=
  bt.root.isNull

/-- `showTree()` (lines 115-119): the values printed, in order. -/
def showTree (bt : BinaryTree T) : List T :=
  bt.root.showTree

/-- The two pushes of lines 140-143 share this guard: `p` goes on the stack unless it is
null. -/
def pushNonNull (p : Addr × NodePtr T) (stack : List (Addr × NodePtr T)) :
    List (Addr × NodePtr T) :=
  if p.2.isNull then stack else p :: stack

/-- Total number of nodes below the pointers of a stack. -/
def stackSize (stack : List (Addr × NodePtr T)) : Nat :=
  (stack.map (fun e => e.2.size)).sum

/-- The addresses of the nodes below the pointers of a stack, from the top. -/
def stackAddrs : List (Addr × NodePtr T) → List Addr
  | [] => []
  | e :: es => addrs e.1 e.2 ++ stackAddrs es

/-- The loop of `clear` (lines 137-145).  Each stack entry is a pointer with its address;
`freed` lists the addresses of the nodes deleted so far, in order. -/
def clearLoop : List (Addr × NodePtr T) → List Addr → Except Fault (List Addr)
  | [], freed => .ok freed
  | (_, nullptr) :: _, _ => .error Fault.nullDereference
  | (a, node left _ right) :: rest, freed =>
    clearLoop
      (pushNonNull (a ++ [Dir.left], left) (pushNonNull (a ++ [Dir.right], right) rest))
      (freed ++ [a])
termination_by stack => stackSize stack
decreasing_by
  cases left <;> cases right <;>
    (simp [stackSize, pushNonNull, NodePtr.isNull, NodePtr.size]; try omega)

/-- `clear` (lines 131-147): the tree afterwards and the addresses of the nodes deleted. -/
def clear (bt : BinaryTree T) : Except Fault (BinaryTree T × List Addr) :=
  if bt.isEmpty then .ok (bt, [])
  else
    match clearLoop [([], bt.root)] [] with
    | .error e => .error e
    | .ok freed => .ok ({ root := nullptr }, freed)

/-- `findNode` (lines 150-152). -/
def findNode [LT T] [∀ a b : T, Decidable (a < b)] [DecidableEq T]
    (bt : BinaryTree T) (value : T) : NodePtr T :=
  findNodeHelper bt.root value

/-- `addNode` (lines 164-184).  The new node `n` has null children; the loop finds `parent`;
`n` is linked as the root, or as the left or right child of `parent`.  The read
`parent->value` finds a node whenever `parent` came out of the loop (`addNodeLoop_node`);
the model leaves the tree as it is otherwise. -/
def addNode [LT T] [∀ a b : T, Decidable (a < b)] (bt : BinaryTree T) (value : T) :
    BinaryTree T :=
  let n : NodePtr T := node nullptr value nullptr
  match addNodeLoop value bt.root [] none with
  | none => { root := n }
  | some parent =>
    match bt.root.at_ parent with
    | nullptr => bt
    | node _ pv _ =>
      if value < pv then { root := bt.root.setLeft parent n }
      else { root := bt.root.setRight parent n }

/-- A tree after the calls `addNode(x)` for the `x` of `values`, in order. -/
def addAll [LT T] [∀ a b : T, Decidable (a < b)] (bt : BinaryTree T) (values : List T) :
    BinaryTree T :=
  values.foldl addNode bt

/-- The tree built from the empty one by inserting `values` in order. -/
def build [LT T] [∀ a b : T, Decidable (a < b)] (values : List T) : BinaryTree T :=
  addAll empty values

/-- `createIterator` (lines 189-191). -/
def createIterator (bt : BinaryTree T) : BinaryTreeIterator T :=
  BinaryTreeIterator.new bt.root

/-- `begin` (lines 195-197): a copy of what `createIterator` returns. -/
def begin_ (bt : BinaryTree T) : BinaryTreeIterator T :=
  createIterator bt

/-- `end` (lines 199-201): an iterator whose `current` is null. -/
def end_ (_bt : BinaryTree T) : BinaryTreeIterator T :=
  BinaryTreeIterator.new nullptr

end BinaryTree

/-! The bookkeeping of `clear` -/

/-- One stack or heap operation of `clear`, on the node at the given address: a push of its
pointer (lines 136, 141, 143) or its deletion (line 144). -/
inductive ClearEvent where
  | push (a : Addr) : ClearEvent
  | delete (a : Addr) : ClearEvent
  deriving DecidableEq

namespace BinaryTree

variable {T : Type}

/-- The event of a guarded push (lines 140-143): none for a null pointer. -/
def pushEvent (p : Addr × NodePtr T) : List ClearEvent :=
  if p.2.isNull then [] else [ClearEvent.push p.1]

/-- The loop of `clear` (lines 137-145) as in `clearLoop`, recording every push and every
deletion in order.  It returns at the exit of the loop, with the events and the stack. -/
def clearTrace : List (Addr × NodePtr T) → List ClearEvent →
    Except Fault (List ClearEvent × List (Addr × NodePtr T))
  | [], events => .ok (events, [])
  | (_, nullptr) :: _, _ => .error Fault.nullDereference
  | (a, node left _ right) :: rest, events =>
    clearTrace
      (pushNonNull (a ++ [Dir.left], left) (pushNonNull (a ++ [Dir.right], right) rest))
      (events ++ pushEvent (a ++ [Dir.right], right) ++ pushEvent (a ++ [Dir.left], left) ++
        [ClearEvent.delete a])
termination_by stack => stackSize stack
decreasing_by
  cases left <;> cases right <;>
    (simp [stackSize, pushNonNull, NodePtr.isNull, NodePtr.size]; try omega)

/-- `clear` (lines 131-147) with its events recorded: the tree afterwards, the events, and
the stack at the exit of the loop. -/
def clearRun (bt : BinaryTree T) :
    Except Fault (BinaryTree T × List ClearEvent × List (Addr × NodePtr T)) :=
  if bt.isEmpty then .ok (bt, [], [])
  else
    match clearTrace [([], bt.root)] [ClearEvent.push []] with
    | .error e => .error e
    | .ok (events, stack) => .ok ({ root := nullptr }, events, stack)

/-- The addresses pushed, in order. -/
def pushed : List ClearEvent → List Addr
  | [] => []
  | ClearEvent.push a :: es => a :: pushed es
  | ClearEvent.delete _ :: es => pushed es

/-- The addresses deleted, in order. -/
def deleted : List ClearEvent → List Addr
  | [] => []
  | ClearEvent.push _ :: es => deleted es
  | ClearEvent.delete a :: es => a :: deleted es

/-- The events the loop of `clear` produces from the moment the pointer `p`, at address
`a`, is on top of the stack until everything below `p` is deleted. -/
def nodeTrace : Addr → NodePtr T → List ClearEvent
  | _, nullptr => []
  | a, node l _ r =>
    pushEvent (a ++ [Dir.right], r) ++ pushEvent (a ++ [Dir.left], l) ++
      [ClearEvent.delete a] ++ nodeTrace (a ++ [Dir.left]) l ++ nodeTrace (a ++ [Dir.right]) r

/-- The events the loop of `clear` produces for a whole stack, from the top. -/
def stackTrace : List (Addr × NodePtr T) → List ClearEvent
  | [] => []
  | e :: es => nodeTrace e.1 e.2 ++ stackTrace es

end BinaryTree

/-! Notions for the shape of a tree -/

namespace NodePtr

variable {T : Type}

/-- The value of the node at address `a` below `p`, when there is a node. -/
def valueAt (p : NodePtr T) (a : Addr) : Option T :=
  match p.at_ a with
  | nullptr => none
  | node _ v _ => some v

/-- The depth of the tree below `p`: the number of nodes on its longest chain downwards. -/
def depth : NodePtr T → Nat
  | nullptr => 0
  | node l _ r => 1 + max (depth l) (depth r)

/-- No node below `p` has a left child. -/
def NoLeftChild : NodePtr T → Prop
  | nullptr => True
  | node l _ r => l = nullptr ∧ NoLeftChild r

/-- The list of the values linked through `right` pointers only. -/
def rightList : List T → NodePtr T
  | [] => nullptr
  | x :: xs => node nullptr x (rightList xs)

/-- The address of the null slot that the descent of `addNode` for `value` ends in: left
when `value < node.value`, otherwise right. -/
def insertAddr [LT T] [∀ a b : T, Decidable (a < b)] (value : T) : NodePtr T → Addr
  | nullptr => []
  | node l v r =>
    if value < v then Dir.left :: insertAddr value l else Dir.right :: insertAddr value r

/-- The descent of `addNode` for `x` runs along the address `a`: every link of `a` leaves a
node on the side that the comparison of `x` with the node chooses. -/
def Follows [LT T] (x : T) : NodePtr T → Addr → Prop
  | _, [] => True
  | nullptr, _ :: _ => False
  | node l v _, Dir.left :: a => x < v ∧ Follows x l a
  | node _ v r, Dir.right :: a => ¬ x < v ∧ Follows x r a

/-- The number of nodes that come before the node at address `a` in the order node, left
subtree, right subtree. -/
def preIndex : NodePtr T → Addr → Nat
  | _, [] => 0
  | nullptr, _ :: _ => 0
  | node l _ _, Dir.left :: a => preIndex l a + 1
  | node l _ r, Dir.right :: a => preIndex r a + l.size + 1

end NodePtr

/-- A record with a key and a payload whose `operator<` compares the keys only. -/
structure Item where
  key : Int
  payload : Nat
  deriving DecidableEq

instance Item.instLT : LT Item := ⟨fun x y => x.key < y.key⟩

instance Item.instDecidableLT (x y : Item) : Decidable (x < y) :=
  inferInstanceAs (Decidable (x.key < y.key))

open BinaryTree BinaryTreeIterator

/-! `addNode` is leaf insertion -/

section AddNode

variable {T : Type} [LT T] [∀ a b : T, Decidable (a < b)]

theorem addNodeLoop_shift (value : T) (pre : Addr) (t : NodePtr T) (cur : Addr)
    (par : Option Addr) :
    addNodeLoop value t (pre ++ cur) (par.map (pre ++ ·)) =
      (addNodeLoop value t cur par).map (pre ++ ·) := by
  induction t generalizing cur par with
  | nullptr => simp [addNodeLoop]
  | node l v r ihl ihr =>
    simp only [addNodeLoop]
    split
    · simpa using ihl (cur ++ [Dir.left]) (some cur)
    · simpa using ihr (cur ++ [Dir.right]) (some cur)

theorem addNodeLoop_node_shift (value : T) (pre : Addr) (l : NodePtr T) (v : T) (r : NodePtr T)
    (par : Option Addr) :
    addNodeLoop value (node l v r) pre par =
      (addNodeLoop value (node l v r) [] none).map (pre ++ ·) := by
  simp only [addNodeLoop]
  split
  · simpa using addNodeLoop_shift value pre l [Dir.left] (some [])
  · simpa using addNodeLoop_shift value pre r [Dir.right] (some [])

/-- What the loop of `addNode` finds: nothing on an empty tree, and otherwise a node whose
slot on the side of `value` receives the new node, with the effect of `insertRec`. -/
theorem addNodeLoop_spec (value : T) (t : NodePtr T) :
    (t = nullptr ∧ addNodeLoop value t [] none = none) ∨
    ∃ q ql qv qr, addNodeLoop value t [] none = some q ∧ t.at_ q = node ql qv qr ∧
      (if value < qv then t.setLeft q (node nullptr value nullptr)
        else t.setRight q (node nullptr value nullptr)) = insertRec value t := by
  induction t with
  | nullptr => exact Or.inl ⟨rfl, rfl⟩
  | node l v r ihl ihr =>
    right
    by_cases h : value < v
    · rcases ihl with ⟨hl, -⟩ | ⟨q, ql, qv, qr, hq, hat, hset⟩
      · subst hl
        exact ⟨[], nullptr, v, r, by simp [addNodeLoop, h], rfl, by simp [h, setLeft, insertRec]⟩
      · refine ⟨Dir.left :: q, ql, qv, qr, ?_, by simpa [at_] using hat, ?_⟩
        · cases l with
          | nullptr => simp [addNodeLoop] at hq
          | node a b c =>
            rw [addNodeLoop, if_pos h, addNodeLoop_node_shift, hq]
            rfl
        · rw [insertRec, if_pos h, ← hset]
          split <;> simp [setLeft, setRight]
    · rcases ihr with ⟨hr, -⟩ | ⟨q, ql, qv, qr, hq, hat, hset⟩
      · subst hr
        exact ⟨[], l, v, nullptr, by simp [addNodeLoop, h], rfl, by simp [h, setRight, insertRec]⟩
      · refine ⟨Dir.right :: q, ql, qv, qr, ?_, by simpa [at_] using hat, ?_⟩
        · cases r with
          | nullptr => simp [addNodeLoop] at hq
          | node a b c =>
            rw [addNodeLoop, if_neg h, addNodeLoop_node_shift, hq]
            rfl
        · rw [insertRec, if_neg h, ← hset]
          split <;> simp [setLeft, setRight]

/-- The `parent` found by the loop of `addNode` points to a node. -/
theorem addNodeLoop_node (value : T) (t : NodePtr T) (q : Addr)
    (h : addNodeLoop value t [] none = some q) : ∃ ql qv qr, t.at_ q = node ql qv qr := by
  rcases addNodeLoop_spec value t with ⟨-, h0⟩ | ⟨q1, ql, qv, qr, hq, hat, -⟩
  · simp [h0] at h
  · rw [hq] at h
    cases h
    exact ⟨ql, qv, qr, hat⟩

theorem addNode_eq_insertRec (bt : BinaryTree T) (value : T) :
    addNode bt value = { root := insertRec value bt.root } := by
  rcases addNodeLoop_spec value bt.root with ⟨h0, h1⟩ | ⟨q, ql, qv, qr, hq, hat, hset⟩
  · simp [addNode, h0, addNodeLoop, insertRec]
  · simp only [addNode, hq, hat]
    rw [← hset]
    split <;> rfl

theorem addAll_root (bt : BinaryTree T) (values : List T) :
    (addAll bt values).root = values.foldl (fun t x => insertRec x t) bt.root := by
  induction values generalizing bt with
  | nil => rfl
  | cons x xs ih => simp [addAll, List.foldl] at ih ⊢; rw [ih, addNode_eq_insertRec]

theorem preorder_insertRec_perm (value : T) (t : NodePtr T) :
    (insertRec value t).preorder.Perm (value :: t.preorder) := by
  induction t with
  | nullptr => simp [insertRec, preorder]
  | node l v r ihl ihr =>
    simp only [insertRec]
    split
    · simp only [preorder]
      refine (List.Perm.cons v (List.Perm.append_right _ ihl)).trans ?_
      exact List.Perm.swap value v _
    · simp only [preorder]
      refine (List.Perm.cons v ((List.Perm.append_left _ ihr).trans ?_)).trans
        (List.Perm.swap value v _)
      exact List.perm_middle

theorem preorder_addAll_perm (bt : BinaryTree T) (values : List T) :
    (addAll bt values).root.preorder.Perm (bt.root.preorder ++ values) := by
  induction values generalizing bt with
  | nil => simp [addAll]
  | cons x xs ih =>
    have h := ih (addNode bt x)
    simp only [addAll, List.foldl] at h ⊢
    refine h.trans ?_
    rw [addNode_eq_insertRec]
    refine (List.Perm.append_right xs (preorder_insertRec_perm x bt.root)).trans ?_
    simpa using (@List.perm_middle T x bt.root.preorder xs).symm

theorem preorder_build_perm (values : List T) : (build values).root.preorder.Perm values := by
  simpa [build, empty, preorder] using preorder_addAll_perm (empty : BinaryTree T) values

end AddNode

/-! One step of the iterator -/

section Iteration

variable {T : Type}

theorem noNull_new (start : NodePtr T) : NoNull (BinaryTreeIterator.new start) := by
  intro p hp
  simp [BinaryTreeIterator.new] at hp

theorem settled_new (start : NodePtr T) : Settled (BinaryTreeIterator.new start) := by
  intro _
  rfl

theorem remaining_popIfNull (it : BinaryTreeIterator T) :
    remaining (popIfNull it) = remaining it := by
  obtain ⟨stack, cur⟩ := it
  cases cur <;> cases stack <;> simp [popIfNull, remaining, stackPreorder, preorder]

theorem noNull_popIfNull (it : BinaryTreeIterator T) (h : NoNull it) : NoNull (popIfNull it) := by
  obtain ⟨stack, cur⟩ := it
  cases cur <;> cases stack <;> simp_all [popIfNull, NoNull]

theorem settled_popIfNull (it : BinaryTreeIterator T) (h : NoNull it) :
    Settled (popIfNull it) := by
  obtain ⟨stack, cur⟩ := it
  cases cur <;> cases stack <;> simp_all [popIfNull, NoNull, Settled, isNull]

/-- Lines 57-66 on a non-null `current`: the value of the node is returned, and the values
still owed are the rest of the pre-order. -/
theorem getNextBody_node (stack : List (NodePtr T)) (l : NodePtr T) (v : T) (r : NodePtr T)
    (h : NoNull { nodeStack := stack, current := node l v r }) :
    ∃ next, getNextBody { nodeStack := stack, current := node l v r } = .ok (v, next) ∧
      remaining { nodeStack := stack, current := node l v r } = v :: remaining next ∧
      NoNull next ∧ Settled next := by
  have hpush : NoNull
      { nodeStack := if r.isNull then stack else r :: stack, current := l } := by
    intro p hp
    cases r with
    | nullptr => exact h p (by simpa [isNull] using hp)
    | node a b c =>
      simp only [isNull, Bool.false_eq_true, if_false, List.mem_cons] at hp
      rcases hp with rfl | hp
      · rfl
      · exact h p hp
  refine ⟨_, rfl, ?_, noNull_popIfNull _ hpush, settled_popIfNull _ hpush⟩
  rw [remaining_popIfNull]
  cases r <;> simp [remaining, stackPreorder, preorder, isNull]

/-- One call of `getNext` on a state that has more: it returns the first value still owed. -/
theorem getNext_spec (it : BinaryTreeIterator T) (hn : NoNull it) (hm : hasMore it = true) :
    ∃ v next, getNext it = .ok (v, next) ∧ remaining it = v :: remaining next ∧
      NoNull next ∧ Settled next := by
  obtain ⟨stack, cur⟩ := it
  cases cur with
  | node l v r =>
    obtain ⟨next, h1, h2, h3, h4⟩ := getNextBody_node stack l v r hn
    exact ⟨v, next, h1, h2, h3, h4⟩
  | nullptr =>
    cases stack with
    | nil => simp [hasMore, isNull] at hm
    | cons top rest =>
      cases top with
      | nullptr => simpa [isNull] using hn nullptr (by simp)
      | node l v r =>
        have hn2 : NoNull { nodeStack := rest, current := node l v r } := by
          intro p hp
          exact hn p (List.mem_cons_of_mem _ hp)
        obtain ⟨next, h1, h2, h3, h4⟩ := getNextBody_node rest l v r hn2
        refine ⟨v, next, h1, ?_, h3, h4⟩
        rw [← h2]
        simp [remaining, stackPreorder, preorder]

theorem getNext_treeIsEmpty_iff (it : BinaryTreeIterator T) :
    getNext it = .error Fault.treeIsEmpty ↔ hasMore it = false := by
  obtain ⟨stack, cur⟩ := it
  cases cur with
  | node l v r => simp [getNext, getNextBody, hasMore, isNull]
  | nullptr =>
    cases stack with
    | nil => simp [getNext, hasMore, isNull]
    | cons top rest => cases top <;> simp [getNext, getNextBody, hasMore, isNull]

theorem hasMore_false_iff (it : BinaryTreeIterator T) :
    hasMore it = false ↔ it = BinaryTreeIterator.new nullptr := by
  obtain ⟨stack, cur⟩ := it
  cases cur <;> cases stack <;> simp [hasMore, isNull, BinaryTreeIterator.new]

theorem remaining_of_hasMore_false (it : BinaryTreeIterator T) (h : hasMore it = false) :
    remaining it = [] := by
  rw [(hasMore_false_iff it).1 h]
  rfl

/-- The `while` loop returns the values still owed, in order, and ends exhausted, once the
fuel covers them. -/
theorem whileHasMore_spec (fuel : Nat) (it : BinaryTreeIterator T) (hn : NoNull it)
    (hf : (remaining it).length ≤ fuel) :
    whileHasMore fuel it = .ok (remaining it, BinaryTreeIterator.new nullptr) := by
  induction fuel generalizing it with
  | zero =>
    cases hm : hasMore it with
    | false =>
      rw [whileHasMore, hm, remaining_of_hasMore_false it hm, ← (hasMore_false_iff it).1 hm]
      rfl
    | true =>
      obtain ⟨v, next, -, h2, -, -⟩ := getNext_spec it hn hm
      simp [h2] at hf
  | succ n ih =>
    cases hm : hasMore it with
    | false =>
      rw [whileHasMore, hm, remaining_of_hasMore_false it hm, ← (hasMore_false_iff it).1 hm]
      rfl
    | true =>
      obtain ⟨v, next, h1, h2, h3, -⟩ := getNext_spec it hn hm
      have hlen : (remaining next).length ≤ n := by
        rw [h2] at hf
        simpa using hf
      simp [whileHasMore, hm, h1, ih next h3 hlen, h2]

theorem remaining_createIterator (bt : BinaryTree T) :
    remaining (createIterator bt) = bt.root.preorder := by
  simp [createIterator, BinaryTreeIterator.new, remaining, stackPreorder]

/-- A full run of the `while` loop over a new iterator returns the pre-order of the tree. -/
theorem whileHasMore_createIterator (bt : BinaryTree T) (fuel : Nat)
    (hf : bt.root.preorder.length ≤ fuel) :
    whileHasMore fuel (createIterator bt) =
      .ok (bt.root.preorder, BinaryTreeIterator.new nullptr) := by
  have h := whileHasMore_spec fuel (createIterator bt) (noNull_new _)
    (by rw [remaining_createIterator]; exact hf)
  rw [remaining_createIterator] at h
  exact h

/-- On a state whose stack holds no null pointer and whose `current` is null only with an
empty stack, one round of the `for` loop reads the value `getNext` returns. -/
theorem deref_inc_spec (it : BinaryTreeIterator T) (hn : NoNull it) (hm : hasMore it = true)
    (hs : Settled it) :
    ∃ v next, deref it = .ok v ∧ inc it = .ok next ∧ getNext it = .ok (v, next) ∧
      remaining it = v :: remaining next ∧ NoNull next ∧ Settled next := by
  obtain ⟨stack, cur⟩ := it
  cases cur with
  | node l v r =>
    obtain ⟨next, h1, h2, h3, h4⟩ := getNextBody_node stack l v r hn
    have hg : getNext { nodeStack := stack, current := node l v r } = .ok (v, next) := h1
    exact ⟨v, next, rfl, by simp [inc, hg], hg, h2, h3, h4⟩
  | nullptr =>
    have h : stack = [] := hs rfl
    subst h
    simp [hasMore, isNull] at hm

end Iteration

/-! The cursor form of the loop -/

section Cursor

variable {T : Type} [DecidableEq T]

theorem ne_end_eq_hasMore (it : BinaryTreeIterator T) (hs : Settled it) :
    ne it (BinaryTreeIterator.new nullptr) = hasMore it := by
  obtain ⟨stack, cur⟩ := it
  cases cur with
  | node l v r => simp [ne, hasMore, isNull, BinaryTreeIterator.new]
  | nullptr =>
    have h : stack = [] := hs rfl
    subst h
    simp [ne, hasMore, isNull, BinaryTreeIterator.new]

/-- The `for` loop reads the values still owed, in order, once the fuel covers them. -/
theorem forLoop_spec (fuel : Nat) (it : BinaryTreeIterator T) (hn : NoNull it)
    (hs : Settled it) (hf : (remaining it).length ≤ fuel) :
    forLoop (BinaryTreeIterator.new nullptr) fuel it = .ok (remaining it) := by
  induction fuel generalizing it with
  | zero =>
    cases hm : hasMore it with
    | false =>
      rw [forLoop, ne_end_eq_hasMore it hs, hm, remaining_of_hasMore_false it hm]
      rfl
    | true =>
      obtain ⟨v, next, -, h2, -, -⟩ := getNext_spec it hn hm
      simp [h2] at hf
  | succ n ih =>
    cases hm : hasMore it with
    | false =>
      rw [forLoop, ne_end_eq_hasMore it hs, hm, remaining_of_hasMore_false it hm]
      rfl
    | true =>
      obtain ⟨v, next, h0, h1, -, h2, h3, h4⟩ := deref_inc_spec it hn hm hs
      have hlen : (remaining next).length ≤ n := by
        rw [h2] at hf
        simpa using hf
      simp [forLoop, ne_end_eq_hasMore it hs, hm, h0, h1, ih next h3 h4 hlen, h2]

end Cursor

/-! Reachable iterator states -/

section Reachable

variable {T : Type}

theorem hasMore_of_getNext_ok (it next : BinaryTreeIterator T) (v : T)
    (h : getNext it = .ok (v, next)) : hasMore it = true := by
  cases hm : hasMore it with
  | true => rfl
  | false =>
    rw [(getNext_treeIsEmpty_iff it).2 hm] at h
    cases h

/-- Every state reached from a new iterator has no null pointer on its stack, and a null
`current` only with an empty stack. -/
theorem reachable_invariant (start : NodePtr T) (it : BinaryTreeIterator T)
    (h : ReachableFrom (BinaryTreeIterator.new start) it) : NoNull it ∧ Settled it := by
  induction h with
  | refl => exact ⟨noNull_new start, settled_new start⟩
  | step _ hg ih =>
    obtain ⟨v, next, h1, -, h3, h4⟩ := getNext_spec _ ih.1 (hasMore_of_getNext_ok _ _ _ hg)
    rw [hg] at h1
    cases h1
    exact ⟨h3, h4⟩

end Reachable

/-! The search-tree invariant and `findNode` -/

section Search

variable {T : Type}

theorem all_iff_preorder (P : T → Prop) (t : NodePtr T) :
    All P t ↔ ∀ x ∈ t.preorder, P x := by
  induction t with
  | nullptr => simp [All, preorder]
  | node l v r ihl ihr =>
    simp only [All, preorder, ihl, ihr, List.mem_cons, List.mem_append]
    constructor
    · rintro ⟨h1, h2, h3⟩ x (rfl | hx | hx)
      · exact h2
      · exact h1 x hx
      · exact h3 x hx
    · intro h
      exact ⟨fun x hx => h x (Or.inr (Or.inl hx)), h v (Or.inl rfl),
        fun x hx => h x (Or.inr (Or.inr hx))⟩

theorem all_insertRec [LT T] [∀ a b : T, Decidable (a < b)] (P : T → Prop) (value : T)
    (t : NodePtr T) (ht : All P t) (hv : P value) : All P (insertRec value t) := by
  induction t with
  | nullptr => exact ⟨trivial, hv, trivial⟩
  | node l v r ihl ihr =>
    obtain ⟨h1, h2, h3⟩ := ht
    simp only [insertRec]
    split
    · exact ⟨ihl h1, h2, h3⟩
    · exact ⟨h1, h2, ihr h3⟩

theorem isBST_insertRec [LinearOrder T] (value : T) (t : NodePtr T) (ht : IsBST t) :
    IsBST (insertRec value t) := by
  induction t with
  | nullptr => exact ⟨trivial, trivial, trivial, trivial⟩
  | node l v r ihl ihr =>
    obtain ⟨h1, h2, h3, h4⟩ := ht
    simp only [insertRec]
    split
    · next h => exact ⟨all_insertRec _ value l h1 h, h2, ihl h3, h4⟩
    · next h => exact ⟨h1, all_insertRec _ value r h2 (not_lt.1 h), h3, ihr h4⟩

theorem isBST_addAll [LinearOrder T] (bt : BinaryTree T) (values : List T)
    (h : IsBST bt.root) : IsBST (addAll bt values).root := by
  induction values generalizing bt with
  | nil => exact h
  | cons x xs ih =>
    have h2 : IsBST (addNode bt x).root := by
      rw [addNode_eq_insertRec]
      exact isBST_insertRec x bt.root h
    exact ih (addNode bt x) h2

theorem isBST_build [LinearOrder T] (values : List T) : IsBST (build values).root :=
  isBST_addAll empty values trivial

/-- Without any assumption on the tree, `findNodeHelper` returns null for a value that does
not occur. -/
theorem findNodeHelper_of_not_mem [LT T] [∀ a b : T, Decidable (a < b)] [DecidableEq T]
    (t : NodePtr T) (value : T) (h : value ∉ t.preorder) :
    findNodeHelper t value = nullptr := by
  induction t with
  | nullptr => rfl
  | node l v r ihl ihr =>
    simp only [preorder, List.mem_cons, List.mem_append, not_or] at h
    obtain ⟨h1, h2, h3⟩ := h
    have hv : ¬ v = value := fun e => h1 e.symm
    simp only [findNodeHelper, if_neg hv]
    split
    · exact ihl h2
    · exact ihr h3

/-- In a search tree `findNodeHelper` finds every value that occurs. -/
theorem findNodeHelper_of_mem [LinearOrder T] (t : NodePtr T) (value : T) (ht : IsBST t)
    (h : value ∈ t.preorder) : ∃ l r, findNodeHelper t value = node l value r := by
  induction t with
  | nullptr => simp [preorder] at h
  | node l v r ihl ihr =>
    obtain ⟨h1, h2, h3, h4⟩ := ht
    by_cases hv : v = value
    · subst hv
      exact ⟨l, r, by simp [findNodeHelper]⟩
    · simp only [findNodeHelper, if_neg hv]
      simp only [preorder, List.mem_cons, List.mem_append] at h
      rcases h with h | h | h
      · exact absurd h.symm hv
      · have hlt : value < v := (all_iff_preorder _ l).1 h1 value h
        rw [if_pos hlt]
        exact ihl h3 h
      · have hle : v ≤ value := (all_iff_preorder _ r).1 h2 value h
        rw [if_neg (not_lt.2 hle)]
        exact ihr h4 h

end Search

/-! `clear` -/

section Clear

variable {T : Type}

theorem stackAddrs_pushNonNull (e : Addr × NodePtr T) (stack : List (Addr × NodePtr T)) :
    stackAddrs (pushNonNull e stack) = addrs e.1 e.2 ++ stackAddrs stack := by
  obtain ⟨a, p⟩ := e
  cases p <;> simp [pushNonNull, stackAddrs, addrs, isNull]

theorem noNull_pushNonNull (e : Addr × NodePtr T) (stack : List (Addr × NodePtr T))
    (h : ∀ x ∈ stack, x.2.isNull = false) : ∀ x ∈ pushNonNull e stack, x.2.isNull = false := by
  obtain ⟨a, p⟩ := e
  cases p with
  | nullptr => simpa [pushNonNull, isNull] using h
  | node l v r =>
    intro x hx
    simp only [pushNonNull, isNull, Bool.false_eq_true, if_false, List.mem_cons] at hx
    rcases hx with rfl | hx
    · rfl
    · exact h x hx

/-- The loop of `clear` ends, and deletes the nodes below each stack entry: the node, then
its left subtree, then its right subtree. -/
theorem clearLoop_spec (stack : List (Addr × NodePtr T)) (freed : List Addr)
    (h : ∀ x ∈ stack, x.2.isNull = false) :
    clearLoop stack freed = .ok (freed ++ stackAddrs stack) := by
  induction stack, freed using clearLoop.induct with
  | case1 freed => simp [clearLoop, stackAddrs]
  | case2 a rest freed => simpa [isNull] using h (a, nullptr) (by simp)
  | case3 a left v right rest freed ih =>
    rw [clearLoop, ih]
    · simp [stackAddrs_pushNonNull, stackAddrs, addrs]
    · apply noNull_pushNonNull
      apply noNull_pushNonNull
      intro x hx
      exact h x (List.mem_cons_of_mem _ hx)

theorem clear_spec (bt : BinaryTree T) :
    clear bt = .ok (empty, addrs [] bt.root) := by
  obtain ⟨root⟩ := bt
  cases root with
  | nullptr => rfl
  | node l v r =>
    have h := clearLoop_spec [(([] : Addr), node l v r)] [] (by simp [isNull])
    simp only [clear, isEmpty, isNull, Bool.false_eq_true, if_false, h]
    simp [stackAddrs, empty]

end Clear

/-! The shape of built trees -/

section Shape

variable {T : Type}

theorem preorder_length (t : NodePtr T) : t.preorder.length = t.size := by
  induction t with
  | nullptr => rfl
  | node l v r ihl ihr => simp [preorder, size, ihl, ihr]; omega

theorem showTree_perm_preorder (t : NodePtr T) : t.showTree.Perm t.preorder := by
  induction t with
  | nullptr => exact List.Perm.refl _
  | node l v r ihl ihr =>
    simp only [NodePtr.showTree, preorder]
    exact List.perm_middle.trans (List.Perm.cons v (List.Perm.append ihl ihr))

theorem showTree_pairwise [LinearOrder T] (t : NodePtr T) (h : IsBST t) :
    t.showTree.Pairwise (· ≤ ·) := by
  induction t with
  | nullptr => exact List.Pairwise.nil
  | node l v r ihl ihr =>
    obtain ⟨h1, h2, h3, h4⟩ := h
    have hl : ∀ x ∈ l.showTree, x < v := fun x hx =>
      (all_iff_preorder _ l).1 h1 x ((showTree_perm_preorder l).mem_iff.1 hx)
    have hr : ∀ x ∈ r.showTree, v ≤ x := fun x hx =>
      (all_iff_preorder _ r).1 h2 x ((showTree_perm_preorder r).mem_iff.1 hx)
    simp only [NodePtr.showTree]
    rw [List.pairwise_append]
    refine ⟨ihl h3, List.pairwise_cons.2 ⟨hr, ihr h4⟩, ?_⟩
    intro x hx y hy
    rcases List.mem_cons.1 hy with rfl | hy
    · exact le_of_lt (hl x hx)
    · exact le_trans (le_of_lt (hl x hx)) (hr y hy)

theorem insertRec_node [LT T] [∀ a b : T, Decidable (a < b)] (value : T) (l : NodePtr T)
    (v : T) (r : NodePtr T) : ∃ l2 r2, insertRec value (node l v r) = node l2 v r2 := by
  simp only [insertRec]
  split
  · exact ⟨_, _, rfl⟩
  · exact ⟨_, _, rfl⟩

theorem addAll_node [LT T] [∀ a b : T, Decidable (a < b)] (values : List T) (l : NodePtr T)
    (v : T) (r : NodePtr T) :
    ∃ l2 r2, (addAll { root := node l v r } values).root = node l2 v r2 := by
  induction values generalizing l r with
  | nil => exact ⟨l, r, rfl⟩
  | cons x xs ih =>
    obtain ⟨l1, r1, h1⟩ := insertRec_node x l v r
    obtain ⟨l2, r2, h2⟩ := ih l1 r1
    refine ⟨l2, r2, ?_⟩
    rw [← h2, ← h1]
    simp [addAll, List.foldl, addNode_eq_insertRec]

theorem insertRec_rightList [LinearOrder T] (xs : List T) (v : T) (h : ∀ x ∈ xs, x ≤ v) :
    insertRec v (rightList xs) = rightList (xs ++ [v]) := by
  induction xs with
  | nil => rfl
  | cons x xs ih =>
    have hx : ¬ v < x := not_lt.2 (h x (List.mem_cons_self _ _))
    have ih2 := ih (fun y hy => h y (List.mem_cons_of_mem _ hy))
    show insertRec v (node nullptr x (rightList xs)) = node nullptr x (rightList (xs ++ [v]))
    rw [insertRec, if_neg hx, ih2]

theorem build_append [LT T] [∀ a b : T, Decidable (a < b)] (xs : List T) (v : T) :
    build (xs ++ [v]) = { root := insertRec v (build xs).root } := by
  simp [build, addAll, List.foldl_append, addNode_eq_insertRec]

theorem build_sorted [LinearOrder T] (xs : List T) (h : xs.Pairwise (· ≤ ·)) :
    (build xs).root = rightList xs := by
  induction xs using List.reverseRecOn with
  | nil => rfl
  | append_singleton xs v ih =>
    rw [List.pairwise_append] at h
    obtain ⟨h1, -, h3⟩ := h
    rw [build_append, ih h1]
    exact insertRec_rightList xs v (fun x hx => h3 x hx v (List.mem_singleton_self v))

theorem noLeftChild_rightList (xs : List T) : NoLeftChild (rightList xs) := by
  induction xs with
  | nil => trivial
  | cons x xs ih => exact ⟨rfl, ih⟩

theorem depth_rightList (xs : List T) : (rightList xs).depth = xs.length := by
  induction xs with
  | nil => rfl
  | cons x xs ih => simp [rightList, depth, ih]; omega

end Shape

/-! Addresses of nodes under insertion -/

section Addresses

variable {T : Type}

theorem at_nullptr (a : Addr) : (nullptr : NodePtr T).at_ a = nullptr := by
  cases a <;> rfl

theorem valueAt_nullptr (a : Addr) : (nullptr : NodePtr T).valueAt a = none := by
  simp [valueAt, at_nullptr]

theorem valueAt_nil (l : NodePtr T) (v : T) (r : NodePtr T) :
    (node l v r).valueAt [] = some v := rfl

theorem valueAt_left (l : NodePtr T) (v : T) (r : NodePtr T) (a : Addr) :
    (node l v r).valueAt (Dir.left :: a) = l.valueAt a := rfl

theorem valueAt_right (l : NodePtr T) (v : T) (r : NodePtr T) (a : Addr) :
    (node l v r).valueAt (Dir.right :: a) = r.valueAt a := rfl

theorem at_nil (t : NodePtr T) : t.at_ [] = t := by
  cases t <;> rfl

theorem at_append (t : NodePtr T) (a b : Addr) : t.at_ (a ++ b) = (t.at_ a).at_ b := by
  induction a generalizing t with
  | nil => simp [at_nil]
  | cons d a ih =>
    cases t with
    | nullptr => simp [at_, at_nullptr]
    | node l v r => cases d <;> simp [at_, ih]

theorem size_insertRec [LT T] [∀ a b : T, Decidable (a < b)] (value : T) (t : NodePtr T) :
    (insertRec value t).size = t.size + 1 := by
  induction t with
  | nullptr => rfl
  | node l v r ihl ihr =>
    simp only [insertRec]
    split
    · simp only [size, ihl]; omega
    · simp only [size, ihr]; omega

theorem at_insertAddr [LT T] [∀ a b : T, Decidable (a < b)] (value : T) (t : NodePtr T) :
    t.at_ (insertAddr value t) = nullptr ∧
      (insertRec value t).at_ (insertAddr value t) = node nullptr value nullptr := by
  induction t with
  | nullptr => exact ⟨rfl, rfl⟩
  | node l v r ihl ihr =>
    simp only [insertRec, insertAddr]
    split
    · exact ihl
    · exact ihr

/-- Leaf insertion changes the value found at one address only, that of the new leaf. -/
theorem valueAt_insertRec [LT T] [∀ a b : T, Decidable (a < b)] (value : T) (t : NodePtr T)
    (a : Addr) :
    (insertRec value t).valueAt a =
      if a = insertAddr value t then some value else t.valueAt a := by
  induction t generalizing a with
  | nullptr =>
    cases a with
    | nil => rfl
    | cons d a => cases d <;> simp [insertRec, insertAddr, valueAt, at_, at_nullptr]
  | node l v r ihl ihr =>
    simp only [insertRec, insertAddr]
    split
    · cases a with
      | nil => simp [valueAt, at_]
      | cons d a =>
        cases d with
        | left => simpa [valueAt_left] using ihl a
        | right => simp [valueAt_right]
    · cases a with
      | nil => simp [valueAt, at_]
      | cons d a =>
        cases d with
        | left => simp [valueAt_left]
        | right => simpa [valueAt_right] using ihr a

theorem valueAt_insertAddr [LT T] [∀ a b : T, Decidable (a < b)] (value : T)
    (t : NodePtr T) : t.valueAt (insertAddr value t) = none := by
  simp [valueAt, (at_insertAddr value t).1]

/-- A node keeps its value and its address under leaf insertion. -/
theorem valueAt_insertRec_of_some [LT T] [∀ a b : T, Decidable (a < b)] (value : T)
    (t : NodePtr T) (a : Addr) (x : T) (h : t.valueAt a = some x) :
    (insertRec value t).valueAt a = some x := by
  rw [valueAt_insertRec, if_neg, h]
  intro e
  rw [e, valueAt_insertAddr] at h
  cases h

theorem mem_preorder_of_valueAt (t : NodePtr T) (a : Addr) (x : T)
    (h : t.valueAt a = some x) : x ∈ t.preorder := by
  induction t generalizing a with
  | nullptr => simp [valueAt_nullptr] at h
  | node l v r ihl ihr =>
    simp only [preorder, List.mem_cons, List.mem_append]
    cases a with
    | nil =>
      simp only [valueAt_nil, Option.some.injEq] at h
      exact Or.inl h.symm
    | cons d a =>
      cases d with
      | left => exact Or.inr (Or.inl (ihl a h))
      | right => exact Or.inr (Or.inr (ihr a h))

/-- In a search tree, the node `findNodeHelper` returns for a value that occurs has every
node of that value below it. -/
theorem findNodeHelper_above_all [LinearOrder T] (t : NodePtr T) (value : T) (ht : IsBST t)
    (h : value ∈ t.preorder) :
    ∃ a l r, t.at_ a = node l value r ∧ findNodeHelper t value = node l value r ∧
      ∀ p, t.valueAt p = some value → a <+: p := by
  induction t with
  | nullptr => simp [preorder] at h
  | node l v r ihl ihr =>
    obtain ⟨h1, h2, h3, h4⟩ := ht
    have hl : ∀ x ∈ l.preorder, x < v := (all_iff_preorder _ l).1 h1
    have hr : ∀ x ∈ r.preorder, v ≤ x := (all_iff_preorder _ r).1 h2
    by_cases hv : v = value
    · subst hv
      exact ⟨[], l, r, rfl, by simp [findNodeHelper], fun p _ => List.nil_prefix⟩
    · simp only [findNodeHelper, if_neg hv]
      simp only [preorder, List.mem_cons, List.mem_append] at h
      by_cases hlt : value < v
      · have hmem : value ∈ l.preorder := by
          rcases h with h | h | h
          · exact absurd h.symm hv
          · exact h
          · exact absurd (hr value h) (not_le.2 hlt)
        obtain ⟨a, l2, r2, hat, hfind, hpre⟩ := ihl h3 hmem
        refine ⟨Dir.left :: a, l2, r2, hat, by rw [if_pos hlt]; exact hfind, ?_⟩
        intro p hp
        cases p with
        | nil =>
          simp only [valueAt_nil, Option.some.injEq] at hp
          exact absurd hp hv
        | cons d p =>
          cases d with
          | left => exact (List.cons_prefix_cons).2 ⟨rfl, hpre p hp⟩
          | right =>
            exact absurd (hr value (mem_preorder_of_valueAt r p value hp)) (not_le.2 hlt)
      · have hmem : value ∈ r.preorder := by
          rcases h with h | h | h
          · exact absurd h.symm hv
          · exact absurd (hl value h) hlt
          · exact h
        obtain ⟨a, l2, r2, hat, hfind, hpre⟩ := ihr h4 hmem
        refine ⟨Dir.right :: a, l2, r2, hat, by rw [if_neg hlt]; exact hfind, ?_⟩
        intro p hp
        cases p with
        | nil =>
          simp only [valueAt_nil, Option.some.injEq] at hp
          exact absurd hp hv
        | cons d p =>
          cases d with
          | left => exact absurd (hl value (mem_preorder_of_valueAt l p value hp)) hlt
          | right => exact (List.cons_prefix_cons).2 ⟨rfl, hpre p hp⟩

end Addresses

/-! The events of `clear` -/

section ClearEvents

variable {T : Type}

theorem stackTrace_pushNonNull (e : Addr × NodePtr T) (stack : List (Addr × NodePtr T)) :
    stackTrace (pushNonNull e stack) = nodeTrace e.1 e.2 ++ stackTrace stack := by
  obtain ⟨a, p⟩ := e
  cases p <;> simp [pushNonNull, stackTrace, nodeTrace, isNull]

/-- The recording loop ends, with an empty stack and the events of each stack entry. -/
theorem clearTrace_spec (stack : List (Addr × NodePtr T)) (events : List ClearEvent)
    (h : ∀ x ∈ stack, x.2.isNull = false) :
    clearTrace stack events = .ok (events ++ stackTrace stack, []) := by
  induction stack, events using clearTrace.induct with
  | case1 events => simp [clearTrace, stackTrace]
  | case2 a rest events => simpa [isNull] using h (a, nullptr) (by simp)
  | case3 a left v right rest events ih =>
    rw [clearTrace, ih]
    · simp [stackTrace_pushNonNull, stackTrace, nodeTrace]
    · apply noNull_pushNonNull
      apply noNull_pushNonNull
      intro x hx
      exact h x (List.mem_cons_of_mem _ hx)

theorem pushed_append (xs ys : List ClearEvent) : pushed (xs ++ ys) = pushed xs ++ pushed ys := by
  induction xs with
  | nil => rfl
  | cons e xs ih => cases e <;> simp [pushed, ih]

theorem deleted_append (xs ys : List ClearEvent) :
    deleted (xs ++ ys) = deleted xs ++ deleted ys := by
  induction xs with
  | nil => rfl
  | cons e xs ih => cases e <;> simp [deleted, ih]

theorem deleted_pushEvent (e : Addr × NodePtr T) : deleted (pushEvent e) = [] := by
  obtain ⟨a, p⟩ := e
  cases p <;> simp [pushEvent, deleted, isNull]

theorem deleted_nodeTrace (a : Addr) (t : NodePtr T) : deleted (nodeTrace a t) = addrs a t := by
  induction t generalizing a with
  | nullptr => rfl
  | node l v r ihl ihr =>
    simp [nodeTrace, deleted_append, deleted_pushEvent, deleted, addrs, ihl, ihr]

/-- Each node below a pointer is pushed once: the pushes of a pointer and of everything the
loop does below it are the addresses of the nodes below it, in some order. -/
theorem pushed_nodeTrace (a : Addr) (t : NodePtr T) :
    (pushed (pushEvent (a, t) ++ nodeTrace a t)).Perm (addrs a t) := by
  induction t generalizing a with
  | nullptr => simp [pushEvent, nodeTrace, pushed, addrs, isNull]
  | node l v r ihl ihr =>
    have hl := ihl (a ++ [Dir.left])
    have hr := ihr (a ++ [Dir.right])
    rw [pushed_append] at hl hr
    have e : pushed (pushEvent (a, node l v r) ++ nodeTrace a (node l v r)) =
        a :: (pushed (pushEvent (a ++ [Dir.right], r)) ++
          (pushed (pushEvent (a ++ [Dir.left], l)) ++
            (pushed (nodeTrace (a ++ [Dir.left]) l) ++
              pushed (nodeTrace (a ++ [Dir.right]) r)))) := by
      show pushed (ClearEvent.push a :: (pushEvent (a ++ [Dir.right], r) ++
        pushEvent (a ++ [Dir.left], l) ++ [ClearEvent.delete a] ++
        nodeTrace (a ++ [Dir.left]) l ++ nodeTrace (a ++ [Dir.right]) r)) = _
      simp [pushed, pushed_append]
    rw [e]
    simp only [addrs]
    refine List.Perm.cons a ?_
    have h2 : (pushed (pushEvent (a ++ [Dir.right], r)) ++
        (pushed (pushEvent (a ++ [Dir.left], l)) ++
          (pushed (nodeTrace (a ++ [Dir.left]) l) ++ pushed (nodeTrace (a ++ [Dir.right]) r)))).Perm
        ((pushed (pushEvent (a ++ [Dir.left], l)) ++ pushed (nodeTrace (a ++ [Dir.left]) l)) ++
          (pushed (pushEvent (a ++ [Dir.right], r)) ++
            pushed (nodeTrace (a ++ [Dir.right]) r))) := by
      rw [List.append_assoc]
      refine List.perm_append_comm.trans ?_
      rw [List.append_assoc, List.append_assoc]
      refine List.Perm.append_left _ ?_
      refine List.Perm.append_left _ ?_
      exact List.perm_append_comm
    exact h2.trans (List.Perm.append hl hr)

theorem mem_addrs (a p : Addr) (t : NodePtr T) :
    p ∈ addrs a t ↔ ∃ q, p = a ++ q ∧ (t.at_ q).isNull = false := by
  induction t generalizing a with
  | nullptr => simp [addrs, at_nullptr, isNull]
  | node l v r ihl ihr =>
    simp only [addrs, List.mem_cons, List.mem_append, ihl, ihr]
    constructor
    · rintro (rfl | ⟨q, rfl, hq⟩ | ⟨q, rfl, hq⟩)
      · exact ⟨[], by simp, rfl⟩
      · exact ⟨Dir.left :: q, by simp, hq⟩
      · exact ⟨Dir.right :: q, by simp, hq⟩
    · rintro ⟨q, rfl, hq⟩
      cases q with
      | nil => exact Or.inl (by simp)
      | cons d q =>
        cases d with
        | left => exact Or.inr (Or.inl ⟨q, by simp, hq⟩)
        | right => exact Or.inr (Or.inr ⟨q, by simp, hq⟩)

theorem addrs_length (a : Addr) (t : NodePtr T) : (addrs a t).length = t.size := by
  induction t generalizing a with
  | nullptr => rfl
  | node l v r ihl ihr => simp [addrs, size, ihl, ihr]; omega

theorem addrs_nodup (a : Addr) (t : NodePtr T) : (addrs a t).Nodup := by
  induction t generalizing a with
  | nullptr => exact List.nodup_nil
  | node l v r ihl ihr =>
    simp only [addrs]
    refine List.nodup_cons.2 ⟨?_, List.Nodup.append (ihl _) (ihr _) ?_⟩
    · intro h
      rcases List.mem_append.1 h with h | h
      · obtain ⟨q, hq, -⟩ := (mem_addrs _ _ _).1 h
        have := congrArg List.length hq
        simp at this
      · obtain ⟨q, hq, -⟩ := (mem_addrs _ _ _).1 h
        have := congrArg List.length hq
        simp at this
    · intro p h1 h2
      obtain ⟨q1, hq1, -⟩ := (mem_addrs _ _ _).1 h1
      obtain ⟨q2, hq2, -⟩ := (mem_addrs _ _ _).1 h2
      rw [hq1] at hq2
      simp at hq2

theorem nodeTrace_left_sub (a : Addr) (l : NodePtr T) (v : T) (r : NodePtr T) :
    List.Sublist (pushEvent (a ++ [Dir.left], l) ++ nodeTrace (a ++ [Dir.left]) l)
      (nodeTrace a (node l v r)) := by
  show List.Sublist _ (pushEvent (a ++ [Dir.right], r) ++ pushEvent (a ++ [Dir.left], l) ++
    [ClearEvent.delete a] ++ nodeTrace (a ++ [Dir.left]) l ++ nodeTrace (a ++ [Dir.right]) r)
  apply List.sublist_append_of_sublist_left
  apply List.Sublist.append _ (List.Sublist.refl _)
  apply List.sublist_append_of_sublist_left
  exact List.sublist_append_right _ _

theorem nodeTrace_right_sub (a : Addr) (l : NodePtr T) (v : T) (r : NodePtr T) :
    List.Sublist (pushEvent (a ++ [Dir.right], r) ++ nodeTrace (a ++ [Dir.right]) r)
      (nodeTrace a (node l v r)) := by
  show List.Sublist _ (pushEvent (a ++ [Dir.right], r) ++ pushEvent (a ++ [Dir.left], l) ++
    [ClearEvent.delete a] ++ nodeTrace (a ++ [Dir.left]) l ++ nodeTrace (a ++ [Dir.right]) r)
  apply List.Sublist.append _ (List.Sublist.refl _)
  apply List.sublist_append_of_sublist_left
  apply List.sublist_append_of_sublist_left
  exact List.sublist_append_left _ _

theorem pushEvent_of_not_null (a : Addr) (t : NodePtr T) (h : t.isNull = false) :
    pushEvent (a, t) = [ClearEvent.push a] := by
  simp [pushEvent, h]

/-- Every node is pushed before it is deleted. -/
theorem push_before_delete (t : NodePtr T) (a q : Addr) (h : (t.at_ q).isNull = false) :
    List.Sublist [ClearEvent.push (a ++ q), ClearEvent.delete (a ++ q)]
      (pushEvent (a, t) ++ nodeTrace a t) := by
  induction t generalizing a q with
  | nullptr => simp [at_nullptr, isNull] at h
  | node l v r ihl ihr =>
    cases q with
    | nil =>
      rw [pushEvent_of_not_null a (node l v r) rfl, List.append_nil]
      show List.Sublist ([ClearEvent.push a] ++ [ClearEvent.delete a]) _
      apply List.Sublist.append (List.Sublist.refl _)
      show List.Sublist _ (pushEvent (a ++ [Dir.right], r) ++ pushEvent (a ++ [Dir.left], l) ++
        [ClearEvent.delete a] ++ nodeTrace (a ++ [Dir.left]) l ++
        nodeTrace (a ++ [Dir.right]) r)
      apply List.sublist_append_of_sublist_left
      apply List.sublist_append_of_sublist_left
      exact List.sublist_append_right _ _
    | cons d q =>
      cases d with
      | left =>
        have h2 := ihl (a ++ [Dir.left]) q h
        rw [List.append_assoc, List.singleton_append] at h2
        exact List.sublist_append_of_sublist_right
          (h2.trans (nodeTrace_left_sub a l v r))
      | right =>
        have h2 := ihr (a ++ [Dir.right]) q h
        rw [List.append_assoc, List.singleton_append] at h2
        exact List.sublist_append_of_sublist_right
          (h2.trans (nodeTrace_right_sub a l v r))

/-- The children of a node are pushed before the node is deleted. -/
theorem child_push_before_delete (t : NodePtr T) (a q : Addr) (d : Dir)
    (h : (t.at_ (q ++ [d])).isNull = false) :
    List.Sublist [ClearEvent.push (a ++ (q ++ [d])), ClearEvent.delete (a ++ q)]
      (nodeTrace a t) := by
  induction t generalizing a q with
  | nullptr => simp [at_nullptr, isNull] at h
  | node l v r ihl ihr =>
    cases q with
    | nil =>
      rw [List.append_nil, List.nil_append]
      show List.Sublist ([ClearEvent.push (a ++ [d])] ++ [ClearEvent.delete a])
        (pushEvent (a ++ [Dir.right], r) ++ pushEvent (a ++ [Dir.left], l) ++
        [ClearEvent.delete a] ++ nodeTrace (a ++ [Dir.left]) l ++
        nodeTrace (a ++ [Dir.right]) r)
      apply List.sublist_append_of_sublist_left
      apply List.sublist_append_of_sublist_left
      apply List.Sublist.append _ (List.Sublist.refl _)
      cases d with
      | left =>
        have hl : l.isNull = false := by simpa [at_, at_nil] using h
        rw [pushEvent_of_not_null _ l hl]
        exact List.sublist_append_right _ _
      | right =>
        have hr : r.isNull = false := by simpa [at_, at_nil] using h
        rw [pushEvent_of_not_null _ r hr]
        exact List.sublist_append_left _ _
    | cons e q =>
      cases e with
      | left =>
        have h2 := ihl (a ++ [Dir.left]) q h
        rw [List.append_assoc, List.singleton_append, List.append_assoc,
          List.singleton_append] at h2
        exact h2.trans ((List.sublist_append_right _ _).trans (nodeTrace_left_sub a l v r))
      | right =>
        have h2 := ihr (a ++ [Dir.right]) q h
        rw [List.append_assoc, List.singleton_append, List.append_assoc,
          List.singleton_append] at h2
        exact h2.trans ((List.sublist_append_right _ _).trans (nodeTrace_right_sub a l v r))

theorem mem_pushed (a : Addr) (es : List ClearEvent) :
    a ∈ pushed es ↔ ClearEvent.push a ∈ es := by
  induction es with
  | nil => simp [pushed]
  | cons e es ih => cases e <;> simp [pushed, ih]

theorem mem_deleted (a : Addr) (es : List ClearEvent) :
    a ∈ deleted es ↔ ClearEvent.delete a ∈ es := by
  induction es with
  | nil => simp [deleted]
  | cons e es ih => cases e <;> simp [deleted, ih]

theorem nodup_of_pushed_deleted (es : List ClearEvent) (hp : (pushed es).Nodup)
    (hd : (deleted es).Nodup) : es.Nodup := by
  induction es with
  | nil => exact List.nodup_nil
  | cons e es ih =>
    cases e with
    | push a =>
      simp only [pushed, deleted, List.nodup_cons] at hp hd
      exact List.nodup_cons.2 ⟨fun h => hp.1 ((mem_pushed a es).2 h), ih hp.2 hd⟩
    | delete a =>
      simp only [pushed, deleted, List.nodup_cons] at hp hd
      exact List.nodup_cons.2 ⟨fun h => hd.1 ((mem_deleted a es).2 h), ih hp hd.2⟩

/-- The events of `clear` on a tree: the push of the root and what the loop does below it. -/
theorem clearRun_spec (bt : BinaryTree T) :
    clearRun bt = .ok (empty, pushEvent ([], bt.root) ++ nodeTrace [] bt.root, []) := by
  obtain ⟨root⟩ := bt
  cases root with
  | nullptr => rfl
  | node l v r =>
    have h := clearTrace_spec [(([] : Addr), node l v r)] [ClearEvent.push []]
      (by simp [isNull])
    simp only [clearRun, isEmpty, isNull, Bool.false_eq_true, if_false, h]
    simp [stackTrace, empty, pushEvent, isNull]

end ClearEvents

/-! Nodes of equal keys -/

section Stability

variable {T : Type}

theorem build_append_list [LT T] [∀ a b : T, Decidable (a < b)] (xs ys : List T) :
    (build (xs ++ ys)).root = ys.foldl (fun t x => insertRec x t) (build xs).root := by
  rw [← addAll_root]
  simp [build, addAll, List.foldl_append]

theorem valueAt_foldl_of_some [LT T] [∀ a b : T, Decidable (a < b)] (ys : List T)
    (t : NodePtr T) (a : Addr) (x : T) (h : t.valueAt a = some x) :
    (ys.foldl (fun t x => insertRec x t) t).valueAt a = some x := by
  induction ys generalizing t with
  | nil => exact h
  | cons y ys ih => exact ih (insertRec y t) (valueAt_insertRec_of_some y t a x h)

theorem follows_insertAddr [LT T] [∀ a b : T, Decidable (a < b)] (x : T) (t : NodePtr T) :
    Follows x (insertRec x t) (insertAddr x t) := by
  induction t with
  | nullptr => trivial
  | node l v r ihl ihr =>
    simp only [insertRec, insertAddr]
    split
    · next h => exact ⟨h, ihl⟩
    · next h => exact ⟨h, ihr⟩

theorem follows_insertRec [LT T] [∀ a b : T, Decidable (a < b)] (x y : T) (t : NodePtr T)
    (a : Addr) (h : Follows x t a) : Follows x (insertRec y t) a := by
  induction t generalizing a with
  | nullptr =>
    cases a with
    | nil => trivial
    | cons d a => exact absurd h (by simp [Follows])
  | node l v r ihl ihr =>
    cases a with
    | nil => simp [Follows]
    | cons d a =>
      simp only [insertRec]
      cases d with
      | left =>
        obtain ⟨h1, h2⟩ := h
        split
        · exact ⟨h1, ihl a h2⟩
        · exact ⟨h1, h2⟩
      | right =>
        obtain ⟨h1, h2⟩ := h
        split
        · exact ⟨h1, h2⟩
        · exact ⟨h1, ihr a h2⟩

theorem follows_foldl [LT T] [∀ a b : T, Decidable (a < b)] (x : T) (ys : List T)
    (t : NodePtr T) (a : Addr) (h : Follows x t a) :
    Follows x (ys.foldl (fun t x => insertRec x t) t) a := by
  induction ys generalizing t with
  | nil => exact h
  | cons y ys ih => exact ih (insertRec y t) (follows_insertRec x y t a h)

/-- A value that compares like `x` and is not smaller than `x` descends to the node of `x`
and goes on into its right subtree. -/
theorem insertAddr_of_follows [LT T] [∀ a b : T, Decidable (a < b)] (x y : T)
    (t : NodePtr T) (a : Addr) (hf : Follows x t a) (hv : t.valueAt a = some x)
    (hsame : ∀ v, y < v ↔ x < v) (hnot : ¬ y < x) :
    ∃ rest, insertAddr y t = a ++ Dir.right :: rest := by
  induction t generalizing a with
  | nullptr => simp [valueAt_nullptr] at hv
  | node l v r ihl ihr =>
    cases a with
    | nil =>
      simp only [valueAt_nil, Option.some.injEq] at hv
      subst hv
      exact ⟨insertAddr y r, by simp [insertAddr, hnot]⟩
    | cons d a =>
      cases d with
      | left =>
        obtain ⟨h1, h2⟩ := hf
        obtain ⟨rest, hrest⟩ := ihl a h2 hv
        exact ⟨rest, by simp [insertAddr, (hsame v).2 h1, hrest]⟩
      | right =>
        obtain ⟨h1, h2⟩ := hf
        obtain ⟨rest, hrest⟩ := ihr a h2 hv
        have h3 : ¬ y < v := fun h => h1 ((hsame v).1 h)
        exact ⟨rest, by simp [insertAddr, h3, hrest]⟩

theorem isNull_of_valueAt (t : NodePtr T) (a : Addr) (x : T) (h : t.valueAt a = some x) :
    (t.at_ a).isNull = false := by
  unfold valueAt at h
  cases hat : t.at_ a with
  | nullptr => simp [hat] at h
  | node l v r => rfl

theorem preIndex_lt_size (t : NodePtr T) (a : Addr) (h : (t.at_ a).isNull = false) :
    preIndex t a < t.size := by
  induction t generalizing a with
  | nullptr => simp [at_nullptr, isNull] at h
  | node l v r ihl ihr =>
    cases a with
    | nil => simp [preIndex, size]
    | cons d a =>
      cases d with
      | left =>
        have := ihl a h
        simp only [preIndex, size]
        omega
      | right =>
        have := ihr a h
        simp only [preIndex, size]
        omega

/-- The value of the node at an address is the one at its index in the pre-order. -/
theorem preorder_preIndex (t : NodePtr T) (a : Addr) (x : T) (h : t.valueAt a = some x) :
    t.preorder[preIndex t a]? = some x := by
  induction t generalizing a with
  | nullptr => simp [valueAt_nullptr] at h
  | node l v r ihl ihr =>
    cases a with
    | nil =>
      simp only [valueAt_nil, Option.some.injEq] at h
      simp [preIndex, preorder, h]
    | cons d a =>
      cases d with
      | left =>
        have hlt : preIndex l a < l.preorder.length := by
          rw [preorder_length]
          exact preIndex_lt_size l a (isNull_of_valueAt l a x h)
        simp only [preIndex, preorder, List.getElem?_cons_succ]
        rw [List.getElem?_append_left hlt]
        exact ihl a h
      | right =>
        simp only [preIndex, preorder, List.getElem?_cons_succ]
        rw [List.getElem?_append_right (by rw [preorder_length]; omega)]
        rw [preorder_length, Nat.add_sub_cancel]
        exact ihr a h

/-- The address of a node is the one at its index in the order of the addresses. -/
theorem addrs_preIndex (t : NodePtr T) (a0 a : Addr) (h : (t.at_ a).isNull = false) :
    (addrs a0 t)[preIndex t a]? = some (a0 ++ a) := by
  induction t generalizing a0 a with
  | nullptr => simp [at_nullptr, isNull] at h
  | node l v r ihl ihr =>
    cases a with
    | nil => simp [preIndex, addrs]
    | cons d a =>
      cases d with
      | left =>
        have hlt : preIndex l a < (addrs (a0 ++ [Dir.left]) l).length := by
          rw [addrs_length]
          exact preIndex_lt_size l a h
        simp only [preIndex, addrs, List.getElem?_cons_succ]
        rw [List.getElem?_append_left hlt, ihl (a0 ++ [Dir.left]) a h]
        simp
      | right =>
        simp only [preIndex, addrs, List.getElem?_cons_succ]
        rw [List.getElem?_append_right (by rw [addrs_length]; omega)]
        rw [addrs_length, Nat.add_sub_cancel, ihr (a0 ++ [Dir.right]) a h]
        simp

/-- A node comes before every node of its right subtree. -/
theorem preIndex_lt_right (t : NodePtr T) (a rest : Addr)
    (h : (t.at_ (a ++ Dir.right :: rest)).isNull = false) :
    preIndex t a < preIndex t (a ++ Dir.right :: rest) := by
  induction t generalizing a with
  | nullptr => simp [at_nullptr, isNull] at h
  | node l v r ihl ihr =>
    cases a with
    | nil => simp [preIndex]
    | cons d a =>
      cases d with
      | left =>
        have := ihl a h
        rw [List.cons_append]
        simp only [preIndex]
        omega
      | right =>
        have := ihr a h
        rw [List.cons_append]
        simp only [preIndex]
        omega

end Stability

/-! The claims -/

section Claims

variable {T : Type}

/-- C1 (the code departs from the claim). The scenario of the claim, run on the code: after
`addNode` of 5, 3, 8, 1, 4, 7, 9 the loop `while (hasMore()) getNext()` returns
5, 3, 1, 4, 8, 7, 9, each node before its left subtree, which is not non-decreasing and is
not 1, 3, 4, 5, 7, 8, 9. -/
theorem C1_scenario_yields_preorder :
    whileHasMore 7 (createIterator (build ([5, 3, 8, 1, 4, 7, 9] : List Int))) =
        .ok ([5, 3, 1, 4, 8, 7, 9], BinaryTreeIterator.new nullptr) ∧
      ¬ List.Pairwise (· ≤ ·) ([5, 3, 1, 4, 8, 7, 9] : List Int) := by
  decide

/-- C2 (the code departs from the claim). After `addNode` of 2 and 1 the iterator returns
2, 1, while `showTree` visits 1, 2: the iterator sequence is not the left-subtree, node,
right-subtree traversal. -/
theorem C2_iterator_differs_from_showTree :
    whileHasMore 2 (createIterator (build ([2, 1] : List Int))) =
        .ok ([2, 1], BinaryTreeIterator.new nullptr) ∧
      showTree (build ([2, 1] : List Int)) = [1, 2] := by
  decide

/-- C3. For every sequence `xs` of insertions into an empty tree, the full iterator sequence
is a permutation of `xs`: it has as many elements as were inserted and every value occurs in
it as often as in `xs`; inserting 2, 2, 2 yields 2, 2, 2. -/
theorem C3_iteration_is_permutation [LT T] [∀ a b : T, Decidable (a < b)] [DecidableEq T]
    (xs : List T) (k : Nat) :
    (∃ ys, whileHasMore (xs.length + k) (createIterator (build xs)) =
          .ok (ys, BinaryTreeIterator.new nullptr) ∧
        ys.Perm xs ∧ ys.length = xs.length ∧ ∀ v, ys.count v = xs.count v) ∧
      whileHasMore 3 (createIterator (build ([2, 2, 2] : List Int))) =
        .ok ([2, 2, 2], BinaryTreeIterator.new nullptr) := by
  have hp := preorder_build_perm xs
  refine ⟨⟨(build xs).root.preorder, ?_, hp, hp.length_eq, fun v => hp.count_eq v⟩, by decide⟩
  apply whileHasMore_createIterator
  rw [hp.length_eq]
  exact Nat.le_add_right _ _

/-- C4. In every iterator state whose stack holds no null pointer (every state a constructed
iterator can reach: the constructor gives one, `getNext` keeps it so), `getNext` throws
"tree is empty" exactly when `hasMore()` is false and returns a value otherwise.  For every
tree built by insertions, the state after the full loop has `hasMore()` false and its next
`getNext` throws; on an empty tree `hasMore()` is false at once. -/
theorem C4_getNext_fails_iff_exhausted [LT T] [∀ a b : T, Decidable (a < b)]
    (it : BinaryTreeIterator T) (hn : NoNull it) :
    (getNext it = .error Fault.treeIsEmpty ↔ hasMore it = false) ∧
      (hasMore it = true → ∃ v next, getNext it = .ok (v, next) ∧ NoNull next) ∧
      (∀ start : NodePtr T, NoNull (BinaryTreeIterator.new start)) ∧
      (∀ (xs : List T) (k : Nat), ∃ ys last,
        whileHasMore (xs.length + k) (createIterator (build xs)) = .ok (ys, last) ∧
          ys.length = xs.length ∧ hasMore last = false ∧
          getNext last = .error Fault.treeIsEmpty) ∧
      hasMore (createIterator (empty : BinaryTree T)) = false ∧
      getNext (createIterator (empty : BinaryTree T)) = .error Fault.treeIsEmpty := by
  refine ⟨getNext_treeIsEmpty_iff it, ?_, noNull_new, ?_, rfl, rfl⟩
  · intro hm
    obtain ⟨v, next, h1, -, h3, -⟩ := getNext_spec it hn hm
    exact ⟨v, next, h1, h3⟩
  · intro xs k
    have hp := preorder_build_perm xs
    refine ⟨(build xs).root.preorder, BinaryTreeIterator.new nullptr, ?_, hp.length_eq,
      rfl, rfl⟩
    apply whileHasMore_createIterator
    rw [hp.length_eq]
    exact Nat.le_add_right _ _

/-- C4 at the state that `getNext` leaves after its first call on the tree of 2, 1, 3: the
stack holds the node of 3, `current` is the node of 1. -/
theorem C4_getNext_fails_iff_exhausted_witness :
    NoNull (BinaryTreeIterator.mk [node nullptr (3 : Int) nullptr] (node nullptr 1 nullptr)) ∧
      ∃ v next,
        getNext (BinaryTreeIterator.mk [node nullptr (3 : Int) nullptr]
          (node nullptr 1 nullptr)) = .ok (v, next) ∧ NoNull next :=
  ⟨by intro p hp; simp at hp; subst hp; rfl,
    (C4_getNext_fails_iff_exhausted
      (BinaryTreeIterator.mk [node nullptr (3 : Int) nullptr] (node nullptr 1 nullptr))
      (by intro p hp; simp at hp; subst hp; rfl)).2.1 (by decide)⟩

/-- C5. For every sequence `xs` of insertions into an empty tree and every value `v`: when
`v` occurs in `xs`, `findNode(v)` returns a node whose value is `v`; when it does not,
`findNode(v)` returns null. -/
theorem C5_findNode_correct [LinearOrder T] (xs : List T) (v : T) :
    (v ∈ xs → ∃ l r, findNode (build xs) v = node l v r) ∧
      (v ∉ xs → findNode (build xs) v = nullptr) := by
  have hp := preorder_build_perm xs
  constructor
  · intro h
    exact findNodeHelper_of_mem _ v (isBST_build xs) (hp.mem_iff.2 h)
  · intro h
    exact findNodeHelper_of_not_mem _ v (fun hm => h (hp.mem_iff.1 hm))

/-- C5 on the tree of 5, 3, 8: 3 is found, 4 is not. -/
theorem C5_findNode_correct_witness :
    ((3 : Int) ∈ [5, 3, 8] ∧ ∃ l r, findNode (build ([5, 3, 8] : List Int)) 3 = node l 3 r) ∧
      ((4 : Int) ∉ [5, 3, 8] ∧ findNode (build ([5, 3, 8] : List Int)) 4 = nullptr) :=
  ⟨⟨by decide, (C5_findNode_correct ([5, 3, 8] : List Int) 3).1 (by decide)⟩,
    ⟨by decide, (C5_findNode_correct ([5, 3, 8] : List Int) 4).2 (by decide)⟩⟩

/-- C6. Every tree built from the empty tree by `addNode` calls has the search-tree property
(left subtree strictly smaller, right subtree greater or equal, at every node), and
`addNode` keeps the property of any tree that has it. -/
theorem C6_addNode_preserves_bst [LinearOrder T] :
    (∀ xs : List T, IsBST (build xs).root) ∧
      (∀ (bt : BinaryTree T) (v : T), IsBST bt.root → IsBST (addNode bt v).root) := by
  refine ⟨isBST_build, ?_⟩
  intro bt v h
  rw [addNode_eq_insertRec]
  exact isBST_insertRec v bt.root h

/-- C6 on the tree of 2, 1: inserting 2 again keeps the search-tree property. -/
theorem C6_addNode_preserves_bst_witness :
    IsBST (build ([2, 1] : List Int)).root ∧
      IsBST (addNode (build ([2, 1] : List Int)) 2).root :=
  ⟨(C6_addNode_preserves_bst (T := Int)).1 [2, 1],
    (C6_addNode_preserves_bst (T := Int)).2 (build [2, 1]) 2
      ((C6_addNode_preserves_bst (T := Int)).1 [2, 1])⟩

/-- C7. `clear()` never fails and is idempotent: on any tree it ends with the root null, so
`isEmpty()` is true and a new iterator has `hasMore()` false and yields nothing; on an empty
tree it changes nothing and deletes nothing; `clear` twice leaves the tree that `clear` once
leaves. -/
theorem C7_clear_idempotent (bt : BinaryTree T) :
    (∃ freed, clear bt = .ok (empty, freed)) ∧
      isEmpty (empty : BinaryTree T) = true ∧
      hasMore (createIterator (empty : BinaryTree T)) = false ∧
      (∀ fuel, whileHasMore fuel (createIterator (empty : BinaryTree T)) =
        .ok ([], BinaryTreeIterator.new nullptr)) ∧
      clear (empty : BinaryTree T) = .ok (empty, []) ∧
      (clear bt >>= fun once => clear once.1 >>= fun twice => pure twice.1) =
        (clear bt >>= fun once => pure once.1) := by
  refine ⟨⟨_, clear_spec bt⟩, rfl, rfl, ?_, rfl, ?_⟩
  · intro fuel
    cases fuel <;> rfl
  · rw [clear_spec bt]
    rfl

/-- C8. After `clear()` the tree behaves as a new one: inserting `ps`, clearing, then
inserting `xs` gives the tree of inserting `xs` into an empty tree, and the same full
iteration, a permutation of `xs` alone; insert 1, clear, insert 9 yields 9 only. -/
theorem C8_clear_then_insert [LT T] [∀ a b : T, Decidable (a < b)] (ps xs : List T)
    (k : Nat) :
    (∃ cleared freed, clear (build ps) = .ok (cleared, freed) ∧
        addAll cleared xs = build xs ∧
        ∃ ys, whileHasMore (xs.length + k) (createIterator (addAll cleared xs)) =
            .ok (ys, BinaryTreeIterator.new nullptr) ∧
          whileHasMore (xs.length + k) (createIterator (build xs)) =
            .ok (ys, BinaryTreeIterator.new nullptr) ∧
          ys.Perm xs) ∧
      ∃ cleared freed, clear (build ([1] : List Int)) = .ok (cleared, freed) ∧
        whileHasMore 1 (createIterator (addAll cleared [9])) =
          .ok ([9], BinaryTreeIterator.new nullptr) := by
  have hp := preorder_build_perm xs
  have hw : whileHasMore (xs.length + k) (createIterator (build xs)) =
      .ok ((build xs).root.preorder, BinaryTreeIterator.new nullptr) := by
    apply whileHasMore_createIterator
    rw [hp.length_eq]
    exact Nat.le_add_right _ _
  exact ⟨⟨empty, _, clear_spec _, rfl, _, hw, hw, hp⟩, ⟨empty, _, clear_spec _, by decide⟩⟩

/-- C9. For every tree built by insertions, the loop
`for (it = begin(); it != end(); ++it) read *it` reads the sequence that
`while (hasMore()) getNext()` returns over `createIterator()`; it ends without a read through
a null pointer, and whenever its guard `it != end()` holds, `*it` reads a node. -/
theorem C9_for_loop_reads_while_sequence [LT T] [∀ a b : T, Decidable (a < b)]
    [DecidableEq T] (xs : List T) (k : Nat) :
    (∃ ys last,
        whileHasMore (xs.length + k) (createIterator (build xs)) = .ok (ys, last) ∧
        forLoop (end_ (build xs)) (xs.length + k) (begin_ (build xs)) = .ok ys) ∧
      ∀ it : BinaryTreeIterator T, ne it (end_ (build xs)) = true →
        it.current ≠ nullptr ∧ ∃ v, deref it = .ok v := by
  have hp := preorder_build_perm xs
  have hlen : (build xs).root.preorder.length ≤ xs.length + k := by
    rw [hp.length_eq]
    exact Nat.le_add_right _ _
  constructor
  · refine ⟨_, _, whileHasMore_createIterator (build xs) _ hlen, ?_⟩
    have h := forLoop_spec (xs.length + k) (createIterator (build xs)) (noNull_new _)
      (settled_new _) (by rw [remaining_createIterator]; exact hlen)
    rw [remaining_createIterator] at h
    exact h
  · intro it h
    obtain ⟨stack, cur⟩ := it
    cases cur with
    | nullptr => simp [ne, end_, BinaryTreeIterator.new] at h
    | node l v r => exact ⟨by simp, v, rfl⟩

/-- C9 on the tree of 2, 1, 3: the guard holds for the new iterator, whose `*it` reads 2. -/
theorem C9_for_loop_reads_while_sequence_witness :
    ne (begin_ (build ([2, 1, 3] : List Int))) (end_ (build ([2, 1, 3] : List Int))) = true ∧
      (begin_ (build ([2, 1, 3] : List Int))).current ≠ nullptr ∧
      ∃ v, deref (begin_ (build ([2, 1, 3] : List Int))) = .ok v :=
  ⟨by decide,
    (C9_for_loop_reads_while_sequence ([2, 1, 3] : List Int) 0).2
      (begin_ (build ([2, 1, 3] : List Int))) (by decide)⟩

/-- C10. In every iterator state reached from `createIterator()` by successful `getNext`
calls, `current` is null only if the stack is empty; so `hasMore()` is true exactly when
`current` is not null, which is exactly when the iterator is `!=` to `end()`. -/
theorem C10_current_null_only_when_exhausted [DecidableEq T] (bt : BinaryTree T)
    (it : BinaryTreeIterator T) (h : ReachableFrom (createIterator bt) it) :
    (it.current = nullptr → it.nodeStack = []) ∧
      (hasMore it = true ↔ it.current ≠ nullptr) ∧
      (hasMore it = true ↔ ne it (end_ bt) = true) := by
  obtain ⟨-, hs⟩ := reachable_invariant bt.root it h
  have hne := ne_end_eq_hasMore it hs
  obtain ⟨stack, cur⟩ := it
  cases cur with
  | nullptr =>
    have h0 : stack = [] := hs rfl
    subst h0
    simp [hasMore, isNull, ne, end_, BinaryTreeIterator.new]
  | node l v r => simp [hasMore, isNull, ne, end_, BinaryTreeIterator.new]

/-- C10 at the state after the first `getNext` on the tree of 2, 1, 3: `current` is the node
of 1 and the stack holds the node of 3. -/
theorem C10_current_null_only_when_exhausted_witness :
    ReachableFrom (createIterator (build ([2, 1, 3] : List Int)))
        (BinaryTreeIterator.mk [node nullptr 3 nullptr] (node nullptr 1 nullptr)) ∧
      (hasMore (BinaryTreeIterator.mk [node nullptr (3 : Int) nullptr]
          (node nullptr 1 nullptr)) = true ↔
        ne (BinaryTreeIterator.mk [node nullptr (3 : Int) nullptr] (node nullptr 1 nullptr))
          (end_ (build ([2, 1, 3] : List Int))) = true) :=
  ⟨ReachableFrom.step (v := 2) ReachableFrom.refl (by decide),
    (C10_current_null_only_when_exhausted (build ([2, 1, 3] : List Int))
      (BinaryTreeIterator.mk [node nullptr 3 nullptr] (node nullptr 1 nullptr))
      (ReachableFrom.step (v := 2) ReachableFrom.refl (by decide))).2.2⟩

/-- C11. `isEmpty()` is true exactly when the tree holds no node (`root` is null): it is true
for a new tree and for the tree `clear()` leaves, and false after any `addNode`, also after
further `addNode` calls; the first value inserted becomes the root and stays there.
`isEmpty` is a function of the tree to a truth value, so it has no effect on the tree. -/
theorem C11_isEmpty_iff_no_node [LT T] [∀ a b : T, Decidable (a < b)] (bt : BinaryTree T)
    (v : T) (xs : List T) :
    (isEmpty bt = true ↔ bt.root = nullptr) ∧
      (isEmpty bt = true ↔ bt.root.size = 0) ∧
      isEmpty (empty : BinaryTree T) = true ∧
      (∃ cleared freed, clear bt = .ok (cleared, freed) ∧ isEmpty cleared = true) ∧
      isEmpty (addNode bt v) = false ∧
      isEmpty (addAll (addNode bt v) xs) = false ∧
      addNode (empty : BinaryTree T) v = { root := node nullptr v nullptr } ∧
      ∃ l r, (build (v :: xs)).root = node l v r := by
  have hadd : ∃ l x r, (addNode bt v).root = node l x r := by
    rw [addNode_eq_insertRec]
    cases hroot : bt.root with
    | nullptr => exact ⟨_, _, _, rfl⟩
    | node l x r =>
      obtain ⟨l2, r2, h⟩ := insertRec_node v l x r
      exact ⟨l2, x, r2, h⟩
  obtain ⟨l, x, r, hnode⟩ := hadd
  obtain ⟨l2, r2, hall⟩ := addAll_node xs l x r
  have hall2 : (addAll (addNode bt v) xs).root = node l2 x r2 := by
    rw [← hall]
    congr 2
    cases hb : addNode bt v
    rw [hb] at hnode
    simp only at hnode
    rw [hnode]
  obtain ⟨l3, r3, hbuild⟩ := addAll_node xs (nullptr : NodePtr T) v nullptr
  refine ⟨?_, ?_, rfl, ⟨empty, _, clear_spec bt, rfl⟩, ?_, ?_, ?_, l3, r3, ?_⟩
  · cases hb : bt.root <;> simp [isEmpty, isNull, hb]
  · cases hb : bt.root <;> simp [isEmpty, isNull, size, hb]
  · simp [isEmpty, hnode, isNull]
  · simp [isEmpty, hall2, isNull]
  · rw [addNode_eq_insertRec]
    rfl
  · rw [← hbuild]
    simp [build, addAll, List.foldl, addNode_eq_insertRec, empty, insertRec]

/-- C12. For every tree of any shape the full iterator sequence from the root is the
pre-order of the tree: a node's value, then the values of its left subtree, then those of
its right subtree.  In every state reached on the way, the values still to be returned are
the pre-order of `current` followed by the pre-orders of the stack entries from the top. -/
theorem C12_iteration_is_preorder (bt : BinaryTree T) (it : BinaryTreeIterator T)
    (h : ReachableFrom (createIterator bt) it) (k : Nat) :
    whileHasMore (bt.root.size + k) (createIterator bt) =
        .ok (bt.root.preorder, BinaryTreeIterator.new nullptr) ∧
      whileHasMore ((it.current.preorder ++ stackPreorder it.nodeStack).length + k) it =
        .ok (it.current.preorder ++ stackPreorder it.nodeStack,
          BinaryTreeIterator.new nullptr) := by
  constructor
  · apply whileHasMore_createIterator
    rw [preorder_length]
    exact Nat.le_add_right _ _
  · exact whileHasMore_spec _ it (reachable_invariant bt.root it h).1 (Nat.le_add_right _ _)

/-- C12 at the state after the first `getNext` on the tree of 2, 1, 3: the values still owed
are 1, then 3. -/
theorem C12_iteration_is_preorder_witness :
    ReachableFrom (createIterator (build ([2, 1, 3] : List Int)))
        (BinaryTreeIterator.mk [node nullptr 3 nullptr] (node nullptr 1 nullptr)) ∧
      whileHasMore 3 (createIterator (build ([2, 1, 3] : List Int))) =
        .ok ([2, 1, 3], BinaryTreeIterator.new nullptr) ∧
      whileHasMore 2
          (BinaryTreeIterator.mk [node nullptr (3 : Int) nullptr] (node nullptr 1 nullptr)) =
        .ok ([1, 3], BinaryTreeIterator.new nullptr) :=
  ⟨ReachableFrom.step (v := 2) ReachableFrom.refl (by decide),
    C12_iteration_is_preorder (build ([2, 1, 3] : List Int))
      (BinaryTreeIterator.mk [node nullptr 3 nullptr] (node nullptr 1 nullptr))
      (ReachableFrom.step (v := 2) ReachableFrom.refl (by decide)) 0⟩

/-- C14. For every tree built by insertions, the left, node, right traversal of `showTree`
visits the values in non-decreasing order and visits every node once: the values visited
are the inserted ones, each as often as inserted, as many as there are nodes.  The
traversal of any tree with the search-tree property is non-decreasing. -/
theorem C14_showTree_sorted [LinearOrder T] (xs : List T) :
    (showTree (build xs)).Pairwise (· ≤ ·) ∧
      (showTree (build xs)).Perm xs ∧
      (showTree (build xs)).length = (build xs).root.size ∧
      ∀ t : NodePtr T, IsBST t → t.showTree.Pairwise (· ≤ ·) := by
  refine ⟨showTree_pairwise _ (isBST_build xs),
    (showTree_perm_preorder _).trans (preorder_build_perm xs), ?_, showTree_pairwise⟩
  rw [← preorder_length]
  exact (showTree_perm_preorder _).length_eq

/-- C14 on the tree of 5, 3, 8, 1, 4, 7, 9, which has the search-tree property: `showTree`
visits 1, 3, 4, 5, 7, 8, 9. -/
theorem C14_showTree_sorted_witness :
    IsBST (build ([5, 3, 8, 1, 4, 7, 9] : List Int)).root ∧
      (build ([5, 3, 8, 1, 4, 7, 9] : List Int)).root.showTree.Pairwise (· ≤ ·) ∧
      showTree (build ([5, 3, 8, 1, 4, 7, 9] : List Int)) = [1, 3, 4, 5, 7, 8, 9] :=
  ⟨isBST_build _,
    (C14_showTree_sorted ([5, 3, 8, 1, 4, 7, 9] : List Int)).2.2.2 _ (isBST_build _),
    by decide⟩

/-- C18. Inserting a non-decreasing sequence of n values into an empty tree gives the list of
these values linked through `right` pointers: no node has a left child and the depth is n.
Nothing but `addNode` builds the tree, and it only links the new leaf. -/
theorem C18_sorted_insertion_degenerates [LinearOrder T] (xs : List T)
    (h : xs.Pairwise (· ≤ ·)) :
    (build xs).root = rightList xs ∧ NoLeftChild (build xs).root ∧
      (build xs).root.depth = xs.length := by
  rw [build_sorted xs h]
  exact ⟨rfl, noLeftChild_rightList xs, depth_rightList xs⟩

/-- C18 on 1, 2, 2, 5: a chain of four nodes to the right. -/
theorem C18_sorted_insertion_degenerates_witness :
    ([1, 2, 2, 5] : List Int).Pairwise (· ≤ ·) ∧
      (build ([1, 2, 2, 5] : List Int)).root = rightList [1, 2, 2, 5] ∧
      NoLeftChild (build ([1, 2, 2, 5] : List Int)).root ∧
      (build ([1, 2, 2, 5] : List Int)).root.depth = 4 :=
  ⟨by decide, C18_sorted_insertion_degenerates ([1, 2, 2, 5] : List Int) (by decide)⟩

/-- C15. `addNode(v)` on any tree computes the tree of recursive leaf insertion
(`insertRec`: left when `v < node.value`, otherwise right, the new node in the first null
slot, at the root of an empty tree).  One leaf holding `v` is added, in a slot that was
null, and every node there was keeps its value and its address. -/
theorem C15_addNode_is_leaf_insertion [LT T] [∀ a b : T, Decidable (a < b)]
    (bt : BinaryTree T) (v : T) :
    addNode bt v = { root := insertRec v bt.root } ∧
      (addNode bt v).root.size = bt.root.size + 1 ∧
      addNode (empty : BinaryTree T) v = { root := node nullptr v nullptr } ∧
      ∃ a, bt.root.at_ a = nullptr ∧
        (addNode bt v).root.at_ a = node nullptr v nullptr ∧
        (∀ p, p ≠ a → (addNode bt v).root.valueAt p = bt.root.valueAt p) ∧
        ∀ p x, bt.root.valueAt p = some x → (addNode bt v).root.valueAt p = some x := by
  have hempty : addNode (empty : BinaryTree T) v = { root := node nullptr v nullptr } := by
    rw [addNode_eq_insertRec]
    rfl
  rw [addNode_eq_insertRec]
  refine ⟨rfl, size_insertRec v bt.root, hempty, insertAddr v bt.root,
    (at_insertAddr v bt.root).1, (at_insertAddr v bt.root).2, ?_, ?_⟩
  · intro p hp
    show (insertRec v bt.root).valueAt p = bt.root.valueAt p
    rw [valueAt_insertRec, if_neg hp]
  · intro p x hx
    exact valueAt_insertRec_of_some v bt.root p x hx

/-- C17. For every tree built by insertions and every value `v` that occurs in it,
`findNode(v)` returns a node of value `v` such that every node of value `v` lies in the
subtree below it: the address of the returned node is a prefix of the address of each such
node, so no occurrence is nearer to the root and none lies outside that subtree. -/
theorem C17_findNode_returns_topmost [LinearOrder T] (xs : List T) (v : T) (hv : v ∈ xs) :
    ∃ a l r, (build xs).root.at_ a = node l v r ∧ findNode (build xs) v = node l v r ∧
      ∀ p, (build xs).root.valueAt p = some v → a <+: p ∧ a.length ≤ p.length := by
  obtain ⟨a, l, r, h1, h2, h3⟩ := findNodeHelper_above_all (build xs).root v (isBST_build xs)
    ((preorder_build_perm xs).mem_iff.2 hv)
  exact ⟨a, l, r, h1, h2, fun p hp => ⟨h3 p hp, (h3 p hp).length_le⟩⟩

/-- C17 on the tree of 5, 3, 8, 3: the node returned for 3 is the left child of the root,
and both nodes of value 3 lie below it. -/
theorem C17_findNode_returns_topmost_witness :
    (3 : Int) ∈ [5, 3, 8, 3] ∧
      ∃ a l r, (build ([5, 3, 8, 3] : List Int)).root.at_ a = node l 3 r ∧
        findNode (build ([5, 3, 8, 3] : List Int)) 3 = node l 3 r ∧
        ∀ p, (build ([5, 3, 8, 3] : List Int)).root.valueAt p = some 3 →
          a <+: p ∧ a.length ≤ p.length :=
  ⟨by decide, C17_findNode_returns_topmost ([5, 3, 8, 3] : List Int) 3 (by decide)⟩

/-- C16. On every tree the stack loop of `clear()` ends, with an empty stack and `root` null,
and releases every node once: there are as many deletions as nodes, the deleted addresses
are those of the nodes, no event occurs twice (no node is pushed twice or deleted twice),
every node is pushed before it is deleted, and the children of a node are pushed before the
node is deleted.  The deletions are those of `clear`. -/
theorem C16_clear_releases_each_node_once (bt : BinaryTree T) :
    ∃ events,
      clearRun bt = .ok (empty, events, []) ∧
      clear bt = .ok (empty, deleted events) ∧
      (deleted events).length = bt.root.size ∧
      events.Nodup ∧ (pushed events).Nodup ∧ (deleted events).Nodup ∧
      (∀ a, a ∈ deleted events ↔ (bt.root.at_ a).isNull = false) ∧
      (∀ a, a ∈ pushed events ↔ (bt.root.at_ a).isNull = false) ∧
      (∀ a, (bt.root.at_ a).isNull = false →
        List.Sublist [ClearEvent.push a, ClearEvent.delete a] events) ∧
      ∀ a d, (bt.root.at_ (a ++ [d])).isNull = false →
        List.Sublist [ClearEvent.push (a ++ [d]), ClearEvent.delete a] events := by
  have hdel : deleted (pushEvent (([] : Addr), bt.root) ++ nodeTrace [] bt.root) =
      addrs [] bt.root := by
    rw [deleted_append, deleted_pushEvent, deleted_nodeTrace, List.nil_append]
  have hpush := pushed_nodeTrace ([] : Addr) bt.root
  have hmem : ∀ a, a ∈ addrs [] bt.root ↔ (bt.root.at_ a).isNull = false := by
    intro a
    rw [mem_addrs]
    constructor
    · rintro ⟨q, rfl, hq⟩
      simpa using hq
    · intro h
      exact ⟨a, by simp, h⟩
  have hnd : (pushed (pushEvent (([] : Addr), bt.root) ++ nodeTrace [] bt.root)).Nodup :=
    hpush.nodup_iff.2 (addrs_nodup _ _)
  refine ⟨pushEvent ([], bt.root) ++ nodeTrace [] bt.root, clearRun_spec bt, ?_, ?_, ?_, hnd,
    ?_, ?_, ?_, ?_, ?_⟩
  · rw [hdel]
    exact clear_spec bt
  · rw [hdel]
    exact addrs_length _ _
  · apply nodup_of_pushed_deleted _ hnd
    rw [hdel]
    exact addrs_nodup _ _
  · rw [hdel]
    exact addrs_nodup _ _
  · intro a
    rw [hdel]
    exact hmem a
  · intro a
    rw [hpush.mem_iff]
    exact hmem a
  · intro a h
    simpa using push_before_delete bt.root [] a h
  · intro a d h
    have h2 := child_push_before_delete bt.root [] a d h
    simp only [List.nil_append] at h2
    exact List.sublist_append_of_sublist_right h2

/-- C16 on the tree of 2, 1, 3: the root is pushed, then its right and left child, then the
root is deleted, the left child, the right child. -/
theorem C16_clear_releases_each_node_once_witness :
    ((build ([2, 1, 3] : List Int)).root.at_ ([] ++ [Dir.left])).isNull = false ∧
      ∃ events, clearRun (build ([2, 1, 3] : List Int)) = .ok (empty, events, []) ∧
        events = [ClearEvent.push [], ClearEvent.push [Dir.right], ClearEvent.push [Dir.left],
          ClearEvent.delete [], ClearEvent.delete [Dir.left], ClearEvent.delete [Dir.right]] ∧
        List.Sublist [ClearEvent.push [Dir.left], ClearEvent.delete []] events := by
  refine ⟨by decide, ?_⟩
  obtain ⟨events, h1, -, -, -, -, -, -, -, -, h2⟩ :=
    C16_clear_releases_each_node_once (build ([2, 1, 3] : List Int))
  refine ⟨events, h1, ?_, h2 [] Dir.left (by decide)⟩
  rw [clearRun_spec] at h1
  cases h1
  decide

/-- C13. Iteration is stable among equal keys.  Let the comparison of the elements look at a
key only, and let `a` be inserted before `b`, with equal keys.  Then the node made for `b`
lies in the right subtree of the node made for `a` (its address continues that of `a` with a
`right` link), both nodes keep their places, and the full iteration returns `a`, at the
index of its node, before `b`, at the index of its node. -/
theorem C13_stable_among_equal_keys {K : Type} [Preorder K] [LT T]
    [∀ a b : T, Decidable (a < b)] (key : T → K) (hkey : ∀ x y : T, x < y ↔ key x < key y)
    (pre mid post : List T) (a b : T) (hab : key a = key b) (k : Nat) :
    ∃ addrA addrB rest,
      addrB = addrA ++ Dir.right :: rest ∧
      (build pre).root.at_ addrA = nullptr ∧
      (build (pre ++ [a])).root.at_ addrA = node nullptr a nullptr ∧
      (build (pre ++ a :: mid)).root.at_ addrB = nullptr ∧
      (build (pre ++ a :: mid ++ [b])).root.at_ addrB = node nullptr b nullptr ∧
      (build (pre ++ a :: mid ++ b :: post)).root.valueAt addrA = some a ∧
      (build (pre ++ a :: mid ++ b :: post)).root.valueAt addrB = some b ∧
      ∃ (ys : List T) (i j : Nat),
        whileHasMore ((pre ++ a :: mid ++ b :: post).length + k)
            (createIterator (build (pre ++ a :: mid ++ b :: post))) =
          .ok (ys, BinaryTreeIterator.new nullptr) ∧
        i < j ∧ ys[i]? = some a ∧ ys[j]? = some b ∧
        (addrs [] (build (pre ++ a :: mid ++ b :: post)).root)[i]? = some addrA ∧
        (addrs [] (build (pre ++ a :: mid ++ b :: post)).root)[j]? = some addrB := by
  have hsame : ∀ v, b < v ↔ a < v := fun v => by rw [hkey, hkey, hab]
  have hnot : ¬ b < a := by
    rw [hkey, hab]
    exact lt_irrefl _
  have e1 : (build (pre ++ [a])).root = insertRec a (build pre).root := by rw [build_append]
  have e2 : (build (pre ++ a :: mid)).root =
      mid.foldl (fun t x => insertRec x t) (insertRec a (build pre).root) := by
    have hl : pre ++ a :: mid = (pre ++ [a]) ++ mid := by simp
    rw [hl, build_append_list, e1]
  have e3 : (build (pre ++ a :: mid ++ [b])).root =
      insertRec b (build (pre ++ a :: mid)).root := by rw [build_append]
  have e4 : (build (pre ++ a :: mid ++ b :: post)).root =
      post.foldl (fun t x => insertRec x t) (insertRec b (build (pre ++ a :: mid)).root) := by
    have hl : pre ++ a :: mid ++ b :: post = (pre ++ a :: mid ++ [b]) ++ post := by simp
    rw [hl, build_append_list, e3]
  have hA := at_insertAddr a (build pre).root
  have hvA1 : (insertRec a (build pre).root).valueAt (insertAddr a (build pre).root) =
      some a := by simp [valueAt, hA.2]
  have hfA2 : Follows a (build (pre ++ a :: mid)).root (insertAddr a (build pre).root) := by
    rw [e2]
    exact follows_foldl a mid _ _ (follows_insertAddr a _)
  have hvA2 : (build (pre ++ a :: mid)).root.valueAt (insertAddr a (build pre).root) =
      some a := by
    rw [e2]
    exact valueAt_foldl_of_some mid _ _ a hvA1
  obtain ⟨rest, hrest⟩ := insertAddr_of_follows a b _ _ hfA2 hvA2 hsame hnot
  have hB := at_insertAddr b (build (pre ++ a :: mid)).root
  rw [hrest] at hB
  have hvB3 : (insertRec b (build (pre ++ a :: mid)).root).valueAt
      (insertAddr a (build pre).root ++ Dir.right :: rest) = some b := by
    simp [valueAt, hB.2]
  have hvAf : (build (pre ++ a :: mid ++ b :: post)).root.valueAt
      (insertAddr a (build pre).root) = some a := by
    rw [e4]
    exact valueAt_foldl_of_some post _ _ a (valueAt_insertRec_of_some b _ _ a hvA2)
  have hvBf : (build (pre ++ a :: mid ++ b :: post)).root.valueAt
      (insertAddr a (build pre).root ++ Dir.right :: rest) = some b := by
    rw [e4]
    exact valueAt_foldl_of_some post _ _ b hvB3
  have hrun : whileHasMore ((pre ++ a :: mid ++ b :: post).length + k)
      (createIterator (build (pre ++ a :: mid ++ b :: post))) =
      .ok ((build (pre ++ a :: mid ++ b :: post)).root.preorder,
        BinaryTreeIterator.new nullptr) := by
    apply whileHasMore_createIterator
    rw [(preorder_build_perm _).length_eq]
    exact Nat.le_add_right _ _
  refine ⟨insertAddr a (build pre).root, _, rest, rfl, hA.1, ?_, hB.1, ?_, hvAf, hvBf,
    _, _, _, hrun, preIndex_lt_right _ _ rest (isNull_of_valueAt _ _ b hvBf),
    preorder_preIndex _ _ a hvAf, preorder_preIndex _ _ b hvBf, ?_, ?_⟩
  · rw [e1]
    exact hA.2
  · rw [e3]
    exact hB.2
  · simpa using addrs_preIndex _ [] _ (isNull_of_valueAt _ _ a hvAf)
  · simpa using addrs_preIndex _ [] _ (isNull_of_valueAt _ _ b hvBf)

/-- C13 on the items (2, 0), (1, 1), (2, 2), compared by their first field: the node of
(2, 2) is the right child of the node of (2, 0), and the iteration returns (2, 0) first. -/
theorem C13_stable_among_equal_keys_witness :
    (∀ x y : Item, x < y ↔ x.key < y.key) ∧
      (Item.mk 2 0).key = (Item.mk 2 2).key ∧
      (build [Item.mk 2 0, Item.mk 1 1, Item.mk 2 2]).root.at_ [Dir.right] =
        node nullptr (Item.mk 2 2) nullptr ∧
      whileHasMore 3 (createIterator (build [Item.mk 2 0, Item.mk 1 1, Item.mk 2 2])) =
        .ok ([Item.mk 2 0, Item.mk 1 1, Item.mk 2 2], BinaryTreeIterator.new nullptr) ∧
      ∃ addrA addrB rest, addrB = addrA ++ Dir.right :: rest ∧
        (build [Item.mk 2 0, Item.mk 1 1, Item.mk 2 2]).root.valueAt addrA =
          some (Item.mk 2 0) ∧
        (build [Item.mk 2 0, Item.mk 1 1, Item.mk 2 2]).root.valueAt addrB =
          some (Item.mk 2 2) := by
  refine ⟨fun _ _ => Iff.rfl, rfl, by decide, by decide, ?_⟩
  obtain ⟨addrA, addrB, rest, h1, -, -, -, -, h6, h7, -⟩ :=
    C13_stable_among_equal_keys Item.key (fun _ _ => Iff.rfl) [] [Item.mk 1 1] []
      (Item.mk 2 0) (Item.mk 2 2) rfl 0
  exact ⟨addrA, addrB, rest, h1, h6, h7⟩

end Claims

end IteratorRepo
